import Mathlib

/-!
Shallow embedding of the OpenAlexPublicationNetwork repository
(`src/citation_network/...`): the raw request executor with its
retry/backoff policy, the pagination-strategy selection in
`OAApi.getEntities`, the offset-page iterator, the graph-assembly step
`createCitationGraph`, the CSV codec
(`save_citation_graph_to_csv` / `create_citation_graph_from_csv`),
and — modelled from the spec, since its source is not in the snapshot —
the bounded BFS traversal of `EntitiesCrawler`.

Python values are embedded as `PyVal`; dicts as ordered association
lists; fallible operations return `Except String`; machine floats that
only ever hold small powers of two (the backoff seconds) are embedded
as rationals.
-/

namespace OpenAlexNet

/-- Embedding of the Python values that flow through the crawler:
ints (Python `bool` is a subclass of `int` but is kept separate here,
with `isinstance(v, int)` treated as true for both), strings, lists,
dicts and `None`. Floats are not needed by any claim about record data. -/
inductive PyVal where
  | pInt : Int → PyVal
  | pBool : Bool → PyVal
  | pStr : String → PyVal
  | pList : List PyVal → PyVal
  | pDict : List (String × PyVal) → PyVal
  | pNone : PyVal

/-- A Python dict with string keys, as an ordered association list
(Python dicts have unique keys; lookup takes the first match). -/
abbrev PyDict := List (String × PyVal)

/-! ## Decimal printing and parsing (Python `str(int)` / `int(str)`) -/

/-- The ASCII digit character for `d` (`0 ≤ d ≤ 9`). -/
def digitChar (d : Nat) : Char := Char.ofNat (48 + d)

/-- Decimal digits of `n`, most significant first; `fuel` structural
recursion so that the kernel can evaluate it (`fuel > n` suffices since
`n / 10 < n` for `n ≥ 10`). -/
def natReprGo : Nat → Nat → List Char
  | 0, _ => []
  | fuel + 1, n => if n < 10 then [digitChar n] else natReprGo fuel (n / 10) ++ [digitChar (n % 10)]

/-- Embedding of Python `str(n)` for a non-negative integer. -/
def natRepr (n : Nat) : String := ⟨natReprGo (n + 1) n⟩

/-- Embedding of Python `str(m)` for an integer. -/
def intRepr (m : Int) : String :=
  if m < 0 then "-" ++ natRepr m.natAbs else natRepr m.natAbs

/-- Numeric value of an ASCII digit character. -/
def digitVal? (c : Char) : Option Nat :=
  if c.isDigit then some (c.toNat - 48) else none

/-- Parse a non-empty all-digit character list as a natural number. -/
def parseDigits? (cs : List Char) : Option Nat :=
  match cs with
  | [] => none
  | _ => cs.foldlM (fun acc c => (digitVal? c).map (fun d => acc * 10 + d)) 0

/-- Character-level embedding of Python `int(s)` on the canonical
decimal strings the crawler produces (an optional minus sign followed
by digits); `none` models the `ValueError` Python raises otherwise. -/
def pyIntChars? (cs : List Char) : Option Int :=
  match cs with
  | '-' :: rest => (parseDigits? rest).map (fun n => -(n : Int))
  | _ => (parseDigits? cs).map (fun n => (n : Int))

/-- Embedding of Python `int(s)` on strings. -/
def pyInt? (s : String) : Option Int := pyIntChars? s.toList

/-! ## Python string splitting and joining (`str.split`, `str.join`) -/

/-- Embedding of Python `s.split(sep)` for a one-character separator,
at the character-list level: always returns at least one (possibly
empty) part. -/
def splitChar (sep : Char) : List Char → List (List Char)
  | [] => [[]]
  | c :: rest =>
    let r := splitChar sep rest
    if c = sep then [] :: r
    else
      match r with
      | [] => [[c]]
      | p :: ps => (c :: p) :: ps

/-- Embedding of Python `sep.join(parts)` for a one-character separator. -/
def joinChar (sep : Char) : List (List Char) → List Char
  | [] => []
  | [p] => p
  | p :: ps => p ++ sep :: joinChar sep ps

/-- `s.split(sep)` on strings. -/
def pySplit (sep : Char) (s : String) : List String :=
  (splitChar sep s.toList).map (fun cs => ⟨cs⟩)

/-- `sep.join(parts)` on strings. -/
def pyJoin (sep : Char) (parts : List String) : String :=
  ⟨joinChar sep (parts.map String.toList)⟩


/-! ## JSON serialization (`json.dumps` / `json.loads`) -/

/-- JSON string escaping of the quote and backslash characters. -/
def jsonEscape (s : String) : String :=
  ⟨s.toList.foldr (fun c acc =>
    (if c = '\\' then ['\\', '\\'] else if c = '"' then ['\\', '"'] else [c]) ++ acc) []⟩

mutual

/-- Embedding of Python `json.dumps` on embedded values. -/
def jsonDumps : PyVal → String
  | .pInt n => intRepr n
  | .pBool true => "true"
  | .pBool false => "false"
  | .pNone => "null"
  | .pStr s => "\"" ++ jsonEscape s ++ "\""
  | .pList l => "[" ++ jsonDumpsList l ++ "]"
  | .pDict d => "\x7b" ++ jsonDumpsDict d ++ "\x7d"

/-- Comma-joined dumps of a list of values. -/
def jsonDumpsList : List PyVal → String
  | [] => ""
  | [v] => jsonDumps v
  | v :: vs => jsonDumps v ++ ", " ++ jsonDumpsList vs

/-- Comma-joined dumps of the key-value pairs of a dict. -/
def jsonDumpsDict : List (String × PyVal) → String
  | [] => ""
  | [(k, v)] => "\"" ++ jsonEscape k ++ "\": " ++ jsonDumps v
  | (k, v) :: kvs => "\"" ++ jsonEscape k ++ "\": " ++ jsonDumps v ++ ", " ++ jsonDumpsDict kvs

end

/-- Skip JSON whitespace. -/
def skipWs : List Char → List Char
  | [] => []
  | c :: cs => if c = ' ' ∨ c = '\n' ∨ c = '\t' ∨ c = '\r' then skipWs cs else c :: cs

/-- Resolve a JSON escape character. -/
def jsonUnescape (c : Char) : Char :=
  if c = 'n' then '\n' else if c = 't' then '\t' else if c = 'r' then '\r' else c

/-- Parse the body of a JSON string (after the opening quote), returning
the contents and the remaining input. -/
def parseJStringGo : List Char → Option (List Char × List Char)
  | [] => none
  | '"' :: rest => some ([], rest)
  | '\\' :: rest =>
    match rest with
    | [] => none
    | c :: rest' => (parseJStringGo rest').map (fun p => (jsonUnescape c :: p.1, p.2))
  | c :: rest => (parseJStringGo rest).map (fun p => (c :: p.1, p.2))

mutual

/-- Fuel-indexed recursive-descent parser for the JSON fragment
`json.dumps` emits (null, booleans, integers, strings, arrays,
objects); models `json.loads`, with `none` for a `JSONDecodeError`. -/
def parseJVal : Nat → List Char → Option (PyVal × List Char)
  | 0, _ => none
  | fuel + 1, cs =>
    match skipWs cs with
    | 'n' :: 'u' :: 'l' :: 'l' :: rest => some (.pNone, rest)
    | 't' :: 'r' :: 'u' :: 'e' :: rest => some (.pBool true, rest)
    | 'f' :: 'a' :: 'l' :: 's' :: 'e' :: rest => some (.pBool false, rest)
    | '"' :: rest => (parseJStringGo rest).map (fun p => (.pStr ⟨p.1⟩, p.2))
    | '[' :: rest =>
      match skipWs rest with
      | ']' :: rest' => some (.pList [], rest')
      | rest' => (parseJItems fuel rest').map (fun p => (.pList p.1, p.2))
    | '{' :: rest =>
      match skipWs rest with
      | '}' :: rest' => some (.pDict [], rest')
      | rest' => (parseJPairs fuel rest').map (fun p => (.pDict p.1, p.2))
    | '-' :: rest =>
      match rest.takeWhile Char.isDigit, rest.dropWhile Char.isDigit with
      | ds, rest' => (parseDigits? ds).map (fun n => (.pInt (-(n : Int)), rest'))
    | rest =>
      match rest.takeWhile Char.isDigit, rest.dropWhile Char.isDigit with
      | ds, rest' => (parseDigits? ds).map (fun n => (.pInt (n : Int), rest'))

/-- Parse the comma-separated items of a JSON array up to `]`. -/
def parseJItems : Nat → List Char → Option (List PyVal × List Char)
  | 0, _ => none
  | fuel + 1, cs => do
    let (v, r) ← parseJVal fuel cs
    match skipWs r with
    | ',' :: r' =>
      let (vs, r'') ← parseJItems fuel r'
      some (v :: vs, r'')
    | ']' :: r' => some ([v], r')
    | _ => none

/-- Parse the comma-separated pairs of a JSON object up to the closing
brace. -/
def parseJPairs : Nat → List Char → Option (List (String × PyVal) × List Char)
  | 0, _ => none
  | fuel + 1, cs =>
    match skipWs cs with
    | '"' :: rest => do
      let (key, r) ← parseJStringGo rest
      match skipWs r with
      | ':' :: r' => do
        let (v, r'') ← parseJVal fuel r'
        match skipWs r'' with
        | ',' :: r3 =>
          let (kvs, r4) ← parseJPairs fuel r3
          some ((⟨key⟩, v) :: kvs, r4)
        | '}' :: r3 => some ([(⟨key⟩, v)], r3)
        | _ => none
      | _ => none
    | _ => none

end

/-- Embedding of Python `json.loads`: parse the whole input. -/
def jsonLoads (s : String) : Option PyVal := do
  let (v, rest) ← parseJVal (s.toList.length + 1) s.toList
  if skipWs rest = [] then some v else none

/-! ## Python `str()` / `repr()` on embedded values -/

/-- The apostrophe character used by Python `repr` for strings. -/
def squote : Char := Char.ofNat 39

mutual

/-- Embedding of Python `repr` on embedded values (used by `str` on
containers); nested strings get single quotes. -/
def pyRepr : PyVal → String
  | .pInt n => intRepr n
  | .pBool true => "True"
  | .pBool false => "False"
  | .pNone => "None"
  | .pStr s => squote.toString ++ s ++ squote.toString
  | .pList l => "[" ++ pyReprList l ++ "]"
  | .pDict d => "\x7b" ++ pyReprDict d ++ "\x7d"

/-- Comma-joined reprs of a list of values. -/
def pyReprList : List PyVal → String
  | [] => ""
  | [v] => pyRepr v
  | v :: vs => pyRepr v ++ ", " ++ pyReprList vs

/-- Comma-joined reprs of the key-value pairs of a dict. -/
def pyReprDict : List (String × PyVal) → String
  | [] => ""
  | [(k, v)] => squote.toString ++ k ++ squote.toString ++ ": " ++ pyRepr v
  | (k, v) :: kvs =>
    squote.toString ++ k ++ squote.toString ++ ": " ++ pyRepr v ++ ", " ++ pyReprDict kvs

end

/-- Embedding of Python `str(v)`: identity on strings, `repr` otherwise. -/
def pyStr : PyVal → String
  | .pStr s => s
  | v => pyRepr v

/-! ## Raw request executor (`OAAPI._makeOARawRequest`, utils/utils.py) -/

/-- One simulated HTTP exchange: a response with a status code and,
for status 200, an optional decoded JSON body (`none` models a body
that raises `JSONDecodeError`), or a transport-level exception. -/
inductive AttemptOutcome where
  | resp (status : Nat) (body : Option PyVal)
  | exn

/-- Error kinds recorded by the profiler (`self.profiler.track(error=...)`). -/
inductive ErrKind where
  | jsonDecode
  | status (code : Nat)
  | requestException
  deriving DecidableEq, Repr

/-- Observable outcome of `_makeOARawRequest`: the returned body (or
`none`), the sequence of `time.sleep` durations in order, the number of
attempts made, and the profiler error records in order. -/
structure RawResult where
  result : Option PyVal
  sleeps : List ℚ
  attempts : Nat
  errors : List ErrKind

/-- The retry loop of `_makeOARawRequest`: `respond i` is the outcome of
the `i`-th attempt (1-based); `left` is the number of attempts remaining;
after exhausting all attempts the call returns `None`. -/
def rawRequestLoop (respond : Nat → AttemptOutcome) (attempt left : Nat) (backoff : ℚ) :
    RawResult :=
  match left with
  | 0 => ⟨none, [], 0, []⟩
  | left' + 1 =>
    match respond attempt with
    | .resp status body =>
      if status = 200 then
        match body with
        | some j => ⟨some j, [], 1, []⟩
        | none => ⟨none, [], 1, [.jsonDecode]⟩
      else if status = 429 then
        let rest := rawRequestLoop respond (attempt + 1) left' (backoff * 2)
        ⟨rest.result, backoff :: rest.sleeps, rest.attempts + 1, .status status :: rest.errors⟩
      else if 500 ≤ status then
        let rest := rawRequestLoop respond (attempt + 1) left' backoff
        ⟨rest.result, backoff :: rest.sleeps, rest.attempts + 1, .status status :: rest.errors⟩
      else
        ⟨none, [], 1, [.status status]⟩
    | .exn =>
      let rest := rawRequestLoop respond (attempt + 1) left' backoff
      ⟨rest.result, backoff :: rest.sleeps, rest.attempts + 1, .requestException :: rest.errors⟩

/-- Embedding of `OAAPI._makeOARawRequest(requestURL, retries=3,
backoff=2.0, rateInterval=0.0)`: an optional rate-interval sleep before
the first attempt, then the retry loop. -/
def makeOARawRequest (respond : Nat → AttemptOutcome)
    (retries : Nat := 3) (backoff : ℚ := 2) (rateInterval : ℚ := 0) : RawResult :=
  let preSleeps : List ℚ := if 0 < rateInterval then [rateInterval] else []
  let r := rawRequestLoop respond 1 retries backoff
  ⟨r.result, preSleeps ++ r.sleeps, r.attempts, r.errors⟩

/-! ## Strategy selection (`OAApi.getEntities`, crawler.py) -/

/-- The two pagination strategies. -/
inductive Strategy where
  | page
  | cursor
  deriving DecidableEq, Repr

/-- What `getEntities` decides after the preliminary call: whether the
truncation warning was emitted, the (possibly capped) total entry count
handed to the iterator (also its `__len__`), the number of pages, and
which iterator class is constructed. -/
structure EntitiesPlan where
  warned : Bool
  totalEntries : Nat
  totalPages : Nat
  strategy : Strategy
  deriving DecidableEq, Repr

/-- Embedding of the decision logic of `OAApi.getEntities`: `count` is
`meta.count` from the preliminary response, `perPage` is
`meta.per_page`.  The cap applies only when `count > maxEntities` and
`maxEntities >= 0`; the strategy is chosen by comparing the (capped)
total against 10000. -/
def getEntitiesPlan (count : Nat) (maxEntities : Int) (perPage : Nat) : EntitiesPlan :=
  let warned : Bool := decide ((count : Int) > maxEntities) && decide (maxEntities ≥ 0)
  let totalEntries : Nat := if (count : Int) > maxEntities ∧ maxEntities ≥ 0
    then maxEntities.toNat else count
  let totalPages : Nat := (totalEntries + perPage - 1) / perPage
  if totalEntries ≤ 10000 then ⟨warned, totalEntries, totalPages, .page⟩
  else ⟨warned, totalEntries, totalPages, .cursor⟩

/-! ## Graph assembly (`createCitationGraph`, network.py) -/

/-- Association-list lookup with Python-dict semantics (first match;
dicts never hold duplicate keys). -/
def alookup [DecidableEq κ] (k : κ) : List (κ × β) → Option β
  | [] => none
  | (k', v) :: rest => if k' = k then some v else alookup k rest

/-- Embedding of `getIntegerIDFromOpenAlex`:
`int(openAlexId.split("/")[-1][1:])`; `none` models the `ValueError`
raised by `int` on a malformed identifier. -/
def getIntegerIDFromOpenAlex (s : String) : Option Int :=
  match (splitChar '/' s.toList).getLast? with
  | some seg => pyIntChars? (seg.drop 1)
  | none => none

/-- `isinstance(v, (int, float, str))` — Python `bool` is a subclass of
`int`, so booleans count as primitive. -/
def isPrimitive : PyVal → Bool
  | .pInt _ => true
  | .pBool _ => true
  | .pStr _ => true
  | _ => false

/-- Embedding of `processPublicationAttributes(attributes,
attributes_to_keep)`: keep only the allow-listed keys (in record
order), serializing non-primitive values with `json.dumps`. -/
def processPublicationAttributes (work : PyDict) (keep : List String) : PyDict :=
  (work.filter (fun kv => keep.contains kv.1)).map
    (fun kv => if isPrimitive kv.2 then kv else (kv.1, .pStr (jsonDumps kv.2)))

/-- The mutable locals of `createCitationGraph` while it streams
through the records. -/
structure AsmState where
  nodeAttributes : List (String × List PyVal)
  nodeReferences : List (List Int)
  oaIntID2Index : List (Int × Nat)
  index2oaIntID : List Int

/-- Append `v` to the per-node value sequence of attribute `k`,
creating the sequence on first sight of `k` (the
`if k not in nodeAttributes: ... nodeAttributes[k].append(v)` pattern). -/
def attrAppend (attrs : List (String × List PyVal)) (k : String) (v : PyVal) :
    List (String × List PyVal) :=
  match attrs with
  | [] => [(k, [v])]
  | (k', vs) :: rest => if k' = k then (k', vs ++ [v]) :: rest else (k', vs) :: attrAppend rest k v

/-- Fetch a key from a record dict; the error models Python's `KeyError`. -/
def getKey (w : PyDict) (k : String) : Except String PyVal :=
  match alookup k w with
  | some v => .ok v
  | none => .error ("KeyError: " ++ k)

/-- Require a string value (identifiers are strings in the stream). -/
def asString : PyVal → Except String String
  | .pStr s => .ok s
  | _ => .error "TypeError: expected str"

/-- Require a list value (`referenced_works` is a list in the stream). -/
def asList : PyVal → Except String (List PyVal)
  | .pList l => .ok l
  | _ => .error "TypeError: expected list"

/-- Parse one OpenAlex identifier value into its integer id. -/
def parseOAId (v : PyVal) : Except String Int :=
  match asString v with
  | .error e => .error e
  | .ok s =>
    match getIntegerIDFromOpenAlex s with
    | some n => .ok n
    | none => .error "ValueError: invalid literal for int"

/-- One loop iteration of `createCitationGraph` over a record `work`:
parse the id, project the attributes, extend the id/index mappings,
buffer the parsed `referenced_works` (a missing field is a `KeyError`
that aborts the whole call), and append each kept attribute value —
and only those values that are present on this record. -/
def assembleStep (keep : List String) (st : AsmState) (work : PyDict) :
    Except String AsmState :=
  match getKey work "id" with
  | .error e => .error e
  | .ok idv =>
    match parseOAId idv with
    | .error e => .error e
    | .ok oaIntegerID =>
      let attributes := processPublicationAttributes work keep
      let oaIntID2Index := (oaIntegerID, st.index2oaIntID.length) :: st.oaIntID2Index
      let index2oaIntID := st.index2oaIntID ++ [oaIntegerID]
      match getKey work "referenced_works" with
      | .error e => .error e
      | .ok refsv =>
        match asList refsv with
        | .error e => .error e
        | .ok rl =>
          match rl.mapM parseOAId with
          | .error e => .error e
          | .ok refs =>
            .ok ⟨attributes.foldl (fun a kv => attrAppend a kv.1 kv.2) st.nodeAttributes,
              st.nodeReferences ++ [refs], oaIntID2Index, index2oaIntID⟩

/-- The record-streaming loop of `createCitationGraph`. -/
def assembleState (keep : List String) (works : List PyDict) : Except String AsmState :=
  works.foldlM (assembleStep keep) ⟨[], [], [], []⟩

/-- The second pass of `createCitationGraph`: resolve each buffered
reference through the id-to-index mapping, dropping references to
identifiers never seen in the stream. -/
def buildEdgesGo (m : List (Int × Nat)) : Nat → List (List Int) → List (Int × Int)
  | _, [] => []
  | i, rs :: rest =>
    rs.filterMap (fun r => (alookup r m).map (fun (j : Nat) => ((i : Int), (j : Int)))) ++
      buildEdgesGo m (i + 1) rest

/-- The directed attributed graph abstraction (`igraph.Graph`): a dense
node index space `0..n-1`, a directed edge list, and per-attribute
value sequences. -/
structure IGraph where
  n : Nat
  edges : List (Nat × Nat)
  vertexAttrs : List (String × List PyVal)

/-- The vertex count `igraph.Graph(n=..., edges=...)` actually uses:
`n` is grown to cover the largest vertex id referenced by an edge. -/
def igraphN (n : Nat) (edges : List (Int × Int)) : Nat :=
  edges.foldl (fun m e => max m (max (e.1.toNat + 1) (e.2.toNat + 1))) n

/-- Embedding of the `ig.Graph(n=..., edges=..., directed=True,
vertex_attrs=...)` constructor: negative vertex ids are an error,
`n` is grown to cover edge endpoints, attributes are stored as given. -/
def mkGraph (n : Nat) (edges : List (Int × Int)) (attrs : List (String × List PyVal)) :
    Except String IGraph :=
  if edges.all (fun e => decide (0 ≤ e.1) && decide (0 ≤ e.2)) then
    .ok ⟨igraphN n edges, edges.map (fun e => (e.1.toNat, e.2.toNat)), attrs⟩
  else .error "igraph error: vertex id must be non-negative"

/-- Embedding of `createCitationGraph(entities, attributes_to_keep)`
from `network.py`: stream through the records, then resolve the
buffered references and construct the graph. -/
def createCitationGraph (keep : List String) (works : List PyDict) : Except String IGraph :=
  match assembleState keep works with
  | .error e => .error e
  | .ok st =>
    mkGraph st.index2oaIntID.length (buildEdgesGo st.oaIntID2Index 0 st.nodeReferences)
      st.nodeAttributes

/-- The default `attributes_to_keep` of `createCitationGraph`. -/
def defaultKeep : List String :=
  ["id", "doi", "title", "publication_year", "publication_date", "language", "is_oa",
   "authorships", "primary_topic", "abstract_inverted_index"]

/-! ## Offset-page iterator (`_pageIterator.__iter__`, utils/iterators.py) -/

/-- The inner `for pageEntry in responsePage["results"]` loop: yield
entries while `processedEntries < totalEntries`, otherwise set
`shouldBreak`.  Returns the yielded entries, the updated counter, and
the break flag. -/
def pageInner (total : Nat) : Nat → List α → List α × Nat × Bool
  | processed, [] => ([], processed, false)
  | processed, e :: es =>
    if processed < total then
      let r := pageInner total (processed + 1) es
      (e :: r.1, r.2.1, r.2.2)
    else ([], processed, true)

/-- The outer `for page in range(1, totalPages + 1)` loop; `server p`
is the `results` list of the response for page `p`. -/
def pagesGo (server : Nat → List α) (total : Nat) : Nat → Nat → Nat → List α
  | _page, 0, _processed => []
  | page, left + 1, processed =>
    let r := pageInner total processed (server page)
    if r.2.2 then r.1 else r.1 ++ pagesGo server total (page + 1) left r.2.1

/-- Embedding of fully consuming `_pageIterator.__iter__`. -/
def pageIteratorRun (server : Nat → List α) (total totalPages : Nat) : List α :=
  pagesGo server total 1 totalPages 0

/-! ## Flat-file codec (utils/utils.py) -/

/-- Out-neighbours of vertex `i` in incident-edge insertion order
(`v.successors()`). -/
def successors (g : IGraph) (i : Nat) : List Nat :=
  (g.edges.filter (fun e => decide (e.1 = i))).map Prod.snd

/-- The cell written for one attribute value:
`v[attr] if v[attr] is not None else ""`, stringified by `csv.writer`. -/
def encodeCell (v : PyVal) : String :=
  match v with
  | .pNone => ""
  | v => pyStr v

/-- The attribute cells of the row for vertex `i`, one per attribute
title in order (missing positions encode as empty, matching igraph's
`None` default). -/
def attrCellsFor (g : IGraph) (i : Nat) : List String :=
  g.vertexAttrs.map (fun kv =>
    match kv.2.get? i with
    | some v => encodeCell v
    | none => "")

/-- The data row for vertex `i`: index, colon-joined successor
indices, then the attribute cells. -/
def encodeRow (g : IGraph) (i : Nat) : List String :=
  natRepr i :: pyJoin ':' ((successors g i).map natRepr) :: attrCellsFor g i

/-- Embedding of `save_citation_graph_to_csv`: the CSV file as a list
of rows of cells (the `csv` module's quoting makes the cell level
lossless), header first. -/
def save_citation_graph_to_csv (g : IGraph) : List (List String) :=
  ("pub" :: "references" :: g.vertexAttrs.map Prod.fst) :: (List.range g.n).map (encodeRow g)

/-- The attribute names whose cells `create_citation_graph_from_csv`
re-parses with `json.loads`. -/
def structuredKeys : List String := ["authorships", "primary_topic", "abstract_inverted_index"]

/-- Decode-side coercion of one attribute cell: `publication_year`
through `int`, the structured names through `json.loads`, everything
else kept as the raw string. -/
def coerceCell (k : String) (v : String) : Except String PyVal :=
  if k = "publication_year" then
    match pyInt? v with
    | some n => .ok (.pInt n)
    | none => .error "ValueError: invalid literal for int"
  else if k ∈ structuredKeys then
    match jsonLoads v with
    | some j => .ok j
    | none => .error "json.decoder.JSONDecodeError"
  else .ok (.pStr v)

/-- The accumulating locals of `create_citation_graph_from_csv`
(`nodes` is a Python `set`, here a duplicate-free list of which only
the size is consumed). -/
structure DecState where
  citationEdges : List (Int × Int)
  nodeAttributes : List (String × List PyVal)
  nodes : List Int

/-- `nodes.add(x)`. -/
def setInsert (s : List Int) (x : Int) : List Int :=
  if s.contains x then s else s ++ [x]

/-- `[int(ref) for ref in row["references"].split(":")] if
row["references"] else []`. -/
def parseRefs (s : String) : Except String (List Int) :=
  if s = "" then .ok []
  else (pySplit ':' s).mapM (fun r =>
    match pyInt? r with
    | some n => Except.ok n
    | none => Except.error "ValueError: invalid literal for int")

/-- The `for k, v in row.items()` attribute loop of one decoded row:
skip the reserved columns, coerce, and append. -/
def decodeRowItem (a : List (String × List PyVal)) (kv : String × String) :
    Except String (List (String × List PyVal)) :=
  if kv.1 = "pub" ∨ kv.1 = "references" then .ok a
  else
    match coerceCell kv.1 kv.2 with
    | .error e => .error e
    | .ok v => .ok (attrAppend a kv.1 v)

/-- The `for k, v in row.items()` attribute loop of one decoded row. -/
def decodeRowItems (st : List (String × List PyVal)) (items : List (String × String)) :
    Except String (List (String × List PyVal)) :=
  items.foldlM decodeRowItem st

/-- Process one data row of the CSV (`csv.DictReader` pairs the header
with the cells): mandatory-column check, node id, edges from the
colon-joined references, then the attribute columns. -/
def decodeRow (header : List String) (st : DecState) (cells : List String) :
    Except String DecState :=
  let row := header.zip cells
  match alookup "pub" row, alookup "references" row with
  | some pubCell, some refsCell =>
    (match pyInt? pubCell with
     | none => .error "ValueError: invalid literal for int"
     | some node_idx =>
       match parseRefs refsCell with
       | .error e => .error e
       | .ok refs =>
         match decodeRowItems st.nodeAttributes row with
         | .error e => .error e
         | .ok nodeAttributes =>
           .ok ⟨st.citationEdges ++ refs.map (fun r => (node_idx, r)), nodeAttributes,
             setInsert st.nodes node_idx⟩)
  | _, _ => .error "KeyError: the CSV must have the pub and references columns"

/-- Embedding of `create_citation_graph_from_csv` on an in-memory CSV
(header row then data rows): fold the rows, then construct the graph
with `n = len(nodes)`. -/
def create_citation_graph_from_csv (csv : List (List String)) : Except String IGraph :=
  match csv with
  | [] => mkGraph 0 [] []
  | header :: rows =>
    match rows.foldlM (decodeRow header) ⟨[], [], []⟩ with
    | .error e => .error e
    | .ok st => mkGraph st.nodes.length st.citationEdges st.nodeAttributes

/-! ## Bounded BFS traversal (`EntitiesCrawler`)

The `EntitiesCrawler` class is imported by `citation_network/__init__.py`
but its source file is not part of the snapshot; the traversal below is
modelled from the spec (§4.3 Bounded BFS Traversal). -/

/-- What a per-work fetch can observe, as an oracle from the external
identifier: `none` is a failed fetch (absent); `some none` a record
lacking the citation-list field; `some (some refs)` a good record with
its cited identifiers. -/
abbrev FetchOracle (α : Type) := α → Option (Option (List α))

/-- Modelled from the spec: `TraversalState` — the FIFO queue of
`(externalId, depth)` pairs, the already-enqueued set, the
processed-node counter, plus the observables the claims talk about
(the yielded ids in order, and the log of every enqueue ever made). -/
structure BfsState (α : Type) where
  queue : List (α × Nat)
  visited : List α
  processed : Nat
  yields : List α
  enqueued : List α

/-- Modelled from the spec: enqueue one cited identifier if it is not
already visited, marking it visited at enqueue time. -/
def bfsEnqueueOne [DecidableEq α] (d : Nat) (s : BfsState α) (r : α) : BfsState α :=
  if r ∈ s.visited then s
  else ⟨s.queue ++ [(r, d + 1)], s.visited ++ [r], s.processed, s.yields, s.enqueued ++ [r]⟩

/-- Modelled from the spec: on a successful fetch, enqueue each cited
identifier not already visited, marking it visited at enqueue time. -/
def bfsEnqueue [DecidableEq α] (d : Nat) (refs : List α) (st : BfsState α) : BfsState α :=
  refs.foldl (bfsEnqueueOne d) st

/-- Modelled from the spec: the BFS loop — stop on an empty queue or a
met node budget; skip dequeued items at depth ≥ `maxDepth` without
fetching or counting; skip failed fetches and records lacking the
citation list; otherwise count, yield, and enqueue the unvisited cited
ids.  `fuel` bounds the number of loop iterations so the model is
total; every claim is stated for all fuel values. -/
def bfsRun [DecidableEq α] (fetch : FetchOracle α) (maxDepth maxNodes : Nat) :
    Nat → BfsState α → BfsState α
  | 0, st => st
  | fuel + 1, st =>
    match st.queue with
    | [] => st
    | (id, d) :: rest =>
      if maxNodes ≤ st.processed then st
      else if maxDepth ≤ d then
        bfsRun fetch maxDepth maxNodes fuel ⟨rest, st.visited, st.processed, st.yields, st.enqueued⟩
      else
        match fetch id with
        | none =>
          bfsRun fetch maxDepth maxNodes fuel
            ⟨rest, st.visited, st.processed, st.yields, st.enqueued⟩
        | some none =>
          bfsRun fetch maxDepth maxNodes fuel
            ⟨rest, st.visited, st.processed, st.yields, st.enqueued⟩
        | some (some refs) =>
          bfsRun fetch maxDepth maxNodes fuel
            (bfsEnqueue d refs
              ⟨rest, st.visited, st.processed + 1, st.yields ++ [id], st.enqueued⟩)

/-- Modelled from the spec: initialize the queue with each seed at
depth 0, all seeds marked visited up front, and run the loop. -/
def bfsTraverse [DecidableEq α] (fetch : FetchOracle α) (maxDepth maxNodes fuel : Nat)
    (seeds : List α) : BfsState α :=
  bfsRun fetch maxDepth maxNodes fuel
    ⟨seeds.map (fun s => (s, 0)), seeds, 0, [], seeds⟩

/-- Total number of records the server supplies across pages
`page, page+1, ..., page+left-1`. -/
def pagesSum (server : Nat → List α) : Nat → Nat → Nat
  | _page, 0 => 0
  | page, left + 1 => (server page).length + pagesSum server (page + 1) left

/-- The dedup invariant of the traversal state: the enqueue log, the
queued ids and the yielded ids are each duplicate-free, all of them are
marked visited, and no yielded id is still queued. -/
def BfsInv (st : BfsState α) : Prop :=
  st.enqueued.Nodup ∧ (st.queue.map Prod.fst).Nodup ∧ st.yields.Nodup ∧
  (∀ a ∈ st.queue.map Prod.fst, a ∈ st.visited) ∧
  (∀ a ∈ st.yields, a ∈ st.visited) ∧
  (∀ a ∈ st.enqueued, a ∈ st.visited) ∧
  (∀ a ∈ st.yields, a ∉ st.queue.map Prod.fst)

/-- The per-node value sequence stored for attribute `k`. -/
def attrSeq (st : AsmState) (k : String) : List PyVal :=
  (alookup k st.nodeAttributes).getD []

/-- The integer identifiers of the records of a stream (those whose
`id` field parses). -/
def assembledIds (works : List PyDict) : List Int :=
  works.filterMap (fun w =>
    match alookup "id" w with
    | some v =>
      match parseOAId v with
      | .ok n => some n
      | .error _ => none
    | none => none)

/-- The values attribute `k` receives from one record: the kept,
projected attribute items whose key is `k` (one value when the record
carries `k` and `k` is kept, none otherwise). -/
def attrContrib (keep : List String) (w : PyDict) (k : String) : List PyVal :=
  ((processPublicationAttributes w keep).filter (fun kv => kv.1 = k)).map Prod.snd

/-- The attribute value of column `kv` at row `i` of an encoded graph. -/
def valAt (i : Nat) (kv : String × List PyVal) : PyVal := kv.2.getD i .pNone

/-! ## Claims about the raw request executor -/

/-- C4: with the default `retries = 3` and initial backoff `2.0`, three
consecutive HTTP 429 responses make the executor sleep exactly
`2.0, 4.0, 8.0` (doubling after each 429), record three rate-limit
errors, and then return absent. -/
theorem backoff_doubling_on_429 :
    makeOARawRequest (fun _ => .resp 429 none) =
      ⟨none, [2, 4, 8], 3, [.status 429, .status 429, .status 429]⟩ := by
  simp only [makeOARawRequest, rawRequestLoop]
  norm_num

/-- C8: a response status that is neither 200 nor 429 nor ≥ 500 (such
as 404) causes exactly one attempt: the error kind is recorded and the
executor returns absent immediately, with no backoff sleep and no
retry. -/
theorem non_retryable_status_single_attempt (respond : Nat → AttemptOutcome)
    (status : Nat) (body : Option PyVal) (retries : Nat) (backoff : ℚ)
    (hresp : respond 1 = .resp status body) (h200 : status ≠ 200) (h429 : status ≠ 429)
    (h500 : status < 500) (hr : 1 ≤ retries) :
    makeOARawRequest respond retries backoff 0 = ⟨none, [], 1, [.status status]⟩ := by
  obtain ⟨r, rfl⟩ : ∃ r, retries = r + 1 := ⟨retries - 1, by omega⟩
  simp only [makeOARawRequest, rawRequestLoop, hresp]
  rw [if_neg h200, if_neg h429, if_neg (by omega)]
  simp

/-- Witness for C8 at a concrete 404 response. -/
theorem non_retryable_status_single_attempt_witness :
    makeOARawRequest (fun _ => .resp 404 none) 3 2 0 = ⟨none, [], 1, [.status 404]⟩ :=
  non_retryable_status_single_attempt (fun _ => .resp 404 none) 404 none 3 2 rfl
    (by decide) (by decide) (by decide) (by decide)

/-! ## Claims about strategy selection in `getEntities` -/

/-- The effective (post-cap) total used everywhere in `getEntities`. -/
theorem getEntitiesPlan_totalEntries (count : Nat) (maxEntities : Int) (perPage : Nat) :
    (getEntitiesPlan count maxEntities perPage).totalEntries =
      (if (count : Int) > maxEntities ∧ maxEntities ≥ 0 then maxEntities.toNat else count) := by
  simp only [getEntitiesPlan]
  split_ifs <;> rfl

/-- The warning flag of `getEntities` as a function of the inputs. -/
theorem getEntitiesPlan_warned (count : Nat) (maxEntities : Int) (perPage : Nat) :
    (getEntitiesPlan count maxEntities perPage).warned =
      (decide ((count : Int) > maxEntities) && decide (maxEntities ≥ 0)) := by
  simp only [getEntitiesPlan]
  split_ifs <;> rfl

/-- The strategy choice of `getEntities` as a function of the inputs. -/
theorem getEntitiesPlan_strategy (count : Nat) (maxEntities : Int) (perPage : Nat) :
    (getEntitiesPlan count maxEntities perPage).strategy =
      (if (getEntitiesPlan count maxEntities perPage).totalEntries ≤ 10000
        then Strategy.page else Strategy.cursor) := by
  rw [getEntitiesPlan_totalEntries]
  simp only [getEntitiesPlan]
  split_ifs <;> rfl

/-- C3 counterexample: for a reported total count `T = 20000 > 10000`
and the default `maxEntities = 10000`, `getEntities` selects the
offset-paged strategy, not the cursor strategy the claim requires
(the cap to `maxEntities` is applied before the strategy choice). -/
theorem strategy_selection_counterexample :
    ¬ (getEntitiesPlan 20000 10000 200).strategy = .cursor ∧ 10000 < 20000 := by
  decide

/-- C3 amended: strategy selection compares the effective total — the
reported count capped at `maxEntities` whenever `maxEntities ≥ 0` —
against 10000.  Hence a reported count `T ≤ 10000` always selects the
offset strategy, and the cursor strategy is selected exactly when
`T > 10000` and `maxEntities` is negative or itself exceeds 10000. -/
theorem strategy_selection_by_capped_total (count : Nat) (maxEntities : Int) (perPage : Nat) :
    ((getEntitiesPlan count maxEntities perPage).strategy = .cursor ↔
      (10000 < count ∧ (maxEntities < 0 ∨ 10000 < maxEntities))) ∧
    (count ≤ 10000 → (getEntitiesPlan count maxEntities perPage).strategy = .page) := by
  constructor
  · rw [getEntitiesPlan_strategy, getEntitiesPlan_totalEntries]
    split_ifs with hcap hle <;> simp <;> omega
  · intro hc
    rw [getEntitiesPlan_strategy, getEntitiesPlan_totalEntries]
    split_ifs <;> first | rfl | (exfalso ; omega)

/-- Witness for C3 amended: at the counterexample's input the cursor
characterization refutes the cursor choice. -/
theorem strategy_selection_by_capped_total_witness :
    ¬ (getEntitiesPlan 20000 10000 200).strategy = .cursor := fun h =>
  absurd ((strategy_selection_by_capped_total 20000 10000 200).1.mp h) (by decide)

/-- C10: with a negative `maxEntities` the truncation cap is not
applied — the total entry count handed to the iterator is the full
`meta.count` even beyond the offset-pagination ceiling, and no warning
is emitted; the cap and the warning fire exactly when
`maxEntities ≥ 0` and the count exceeds it. -/
theorem negative_maxEntities_uncapped (count : Nat) (maxEntities : Int) (perPage : Nat) :
    (maxEntities < 0 →
      (getEntitiesPlan count maxEntities perPage).warned = false ∧
      (getEntitiesPlan count maxEntities perPage).totalEntries = count) ∧
    ((getEntitiesPlan count maxEntities perPage).warned = true ↔
      ((count : Int) > maxEntities ∧ 0 ≤ maxEntities)) := by
  rw [getEntitiesPlan_warned, getEntitiesPlan_totalEntries]
  constructor
  · intro hneg
    rw [if_neg (by omega)]
    refine ⟨?_, rfl⟩
    have h0 : decide (maxEntities ≥ 0) = false := by
      simp only [decide_eq_false_iff_not, not_le]
      omega
    rw [h0, Bool.and_false]
  · simp only [Bool.and_eq_true, decide_eq_true_eq, ge_iff_le]

/-- Witness for C10 at `meta.count = 20000`, `maxEntities = -1`: the
count stays 20000 (beyond the 10000 ceiling) with no warning. -/
theorem negative_maxEntities_uncapped_witness :
    (getEntitiesPlan 20000 (-1) 200).warned = false ∧
      (getEntitiesPlan 20000 (-1) 200).totalEntries = 20000 :=
  (negative_maxEntities_uncapped 20000 (-1) 200).1 (by decide)

/-! ## Claims about the offset-page iterator -/

/-- The page count computed by `getEntities`
(`math.ceil(totalEntries / totalEntriesPerPage)`). -/
theorem getEntitiesPlan_totalPages (count : Nat) (maxEntities : Int) (perPage : Nat) :
    (getEntitiesPlan count maxEntities perPage).totalPages =
      ((getEntitiesPlan count maxEntities perPage).totalEntries + perPage - 1) / perPage := by
  simp only [getEntitiesPlan]
  split_ifs <;> rfl

theorem pageInner_fst (total : Nat) (processed : Nat) (es : List α) :
    (pageInner total processed es).1 = es.take (total - processed) := by
  induction es generalizing processed with
  | nil => simp [pageInner]
  | cons e es ih =>
    simp only [pageInner]
    split_ifs with h
    · have ht : total - processed = (total - (processed + 1)) + 1 := by omega
      rw [ht, List.take_succ_cons, ih]
    · have ht : total - processed = 0 := by omega
      simp [ht]

theorem pageInner_snd (total : Nat) (processed : Nat) (es : List α) :
    (pageInner total processed es).2.1 = processed + min es.length (total - processed) := by
  induction es generalizing processed with
  | nil => simp [pageInner]
  | cons e es ih =>
    simp only [pageInner]
    split_ifs with h
    · rw [ih]
      simp only [List.length_cons]
      omega
    · simp only [List.length_cons]
      omega

theorem pageInner_flag (total : Nat) (processed : Nat) (es : List α) :
    (pageInner total processed es).2.2 = decide (total - processed < es.length) := by
  induction es generalizing processed with
  | nil => simp [pageInner]
  | cons e es ih =>
    simp only [pageInner]
    split_ifs with h
    · rw [ih]
      rw [decide_eq_decide]
      simp only [List.length_cons]
      omega
    · rw [eq_comm, decide_eq_true_eq]
      simp only [List.length_cons]
      omega

/-- The record count fully consuming the page loop yields: the page
budget `total - processed` truncated by the total server supply. -/
theorem pagesGo_length (server : Nat → List α) (total : Nat) :
    ∀ (left page processed : Nat),
      (pagesGo server total page left processed).length =
        min (total - processed) (pagesSum server page left) := by
  intro left
  induction left with
  | zero => simp [pagesGo, pagesSum]
  | succ left ih =>
    intro page processed
    simp only [pagesGo, pagesSum, pageInner_flag, pageInner_fst, pageInner_snd]
    split_ifs with h
    · rw [decide_eq_true_eq] at h
      simp only [List.length_take]
      omega
    · rw [decide_eq_true_eq, not_lt] at h
      simp only [List.length_append, List.length_take, ih]
      omega

/-- `total ≤ ceil(total / perPage) * perPage`. -/
theorem le_ceil_mul (total perPage : Nat) (hp : 0 < perPage) :
    total ≤ (total + perPage - 1) / perPage * perPage := by
  have h1 := Nat.div_add_mod (total + perPage - 1) perPage
  have h2 : (total + perPage - 1) % perPage < perPage := Nat.mod_lt _ hp
  rw [Nat.mul_comm]
  generalize perPage * ((total + perPage - 1) / perPage) = r at h1 ⊢
  omega

/-- C7: for every reported total `T` and every cap `maxEntities ≥ 0`,
fully consuming the offset-page iterator (constructed with the capped
total and page count `getEntities` computes) yields exactly
`min(T, maxEntities)` records whenever the server supplies at least
that many across the requested pages — in particular when the final
page holds more records than needed — and never yields more, whatever
the pages contain. -/
theorem pageIterator_yields_min (T : Nat) (maxEntities : Int) (perPage : Nat)
    (server : Nat → List α) (hE : 0 ≤ maxEntities)
    (hsupply : (getEntitiesPlan T maxEntities perPage).totalEntries ≤
      pagesSum server 1 (getEntitiesPlan T maxEntities perPage).totalPages) :
    (pageIteratorRun server (getEntitiesPlan T maxEntities perPage).totalEntries
        (getEntitiesPlan T maxEntities perPage).totalPages).length =
      min T maxEntities.toNat ∧
    ∀ server' : Nat → List α,
      (pageIteratorRun server' (getEntitiesPlan T maxEntities perPage).totalEntries
          (getEntitiesPlan T maxEntities perPage).totalPages).length ≤
        min T maxEntities.toNat := by
  have htot : (getEntitiesPlan T maxEntities perPage).totalEntries = min T maxEntities.toNat := by
    rw [getEntitiesPlan_totalEntries]
    split_ifs with h <;> omega
  constructor
  · rw [pageIteratorRun, pagesGo_length, ← htot]
    omega
  · intro server'
    rw [pageIteratorRun, pagesGo_length, ← htot]
    omega

/-- Witness for C7: `T = 5` capped at `maxEntities = 3`, page size 2 —
two pages of two records each (the second page holds one more record
than needed), yielding exactly 3 records. -/
theorem pageIterator_yields_min_witness :
    (pageIteratorRun (fun p => [10 * p, 10 * p + 1])
        (getEntitiesPlan 5 3 2).totalEntries (getEntitiesPlan 5 3 2).totalPages).length =
      min 5 (Int.toNat 3) :=
  (pageIterator_yields_min 5 3 2 (fun p => [10 * p, 10 * p + 1]) (by decide) (by decide)).1

/-! ## Claims about the BFS traversal (spec-modelled) -/

theorem bfsEnqueueOne_inv [DecidableEq α] (d : Nat) (s : BfsState α) (r : α)
    (h : BfsInv s) : BfsInv (bfsEnqueueOne d s r) := by
  unfold bfsEnqueueOne
  split_ifs with hr
  · exact h
  · obtain ⟨h1, h2, h3, h4, h5, h6, h7⟩ := h
    refine ⟨?_, ?_, h3, ?_, ?_, ?_, ?_⟩
    · simp only [List.nodup_append, List.nodup_cons, List.not_mem_nil, not_false_iff,
        List.nodup_nil, and_true, true_and]
      refine ⟨h1, ?_⟩
      intro a ha hmem
      rw [List.mem_singleton] at hmem
      exact hr (h6 _ (hmem ▸ ha))
    · simp only [List.map_append, List.map_cons, List.map_nil, List.nodup_append,
        List.nodup_cons, List.not_mem_nil, not_false_iff, List.nodup_nil, and_true, true_and]
      refine ⟨h2, ?_⟩
      intro a ha hmem
      rw [List.mem_singleton] at hmem
      exact hr (h4 _ (hmem ▸ ha))
    · intro a ha
      simp only [List.map_append, List.map_cons, List.map_nil, List.mem_append,
        List.mem_singleton] at ha
      rcases ha with ha | rfl_a
      · exact List.mem_append_left _ (h4 _ ha)
      · subst rfl_a
        exact List.mem_append_right _ (List.mem_singleton_self _)
    · intro a ha
      exact List.mem_append_left _ (h5 _ ha)
    · intro a ha
      simp only [List.mem_append, List.mem_singleton] at ha
      rcases ha with ha | rfl_a
      · exact List.mem_append_left _ (h6 _ ha)
      · subst rfl_a
        exact List.mem_append_right _ (List.mem_singleton_self _)
    · intro a ha
      simp only [List.map_append, List.map_cons, List.map_nil, List.mem_append,
        List.mem_singleton]
      push_neg
      refine ⟨h7 _ ha, ?_⟩
      intro rfl_a
      exact hr (rfl_a ▸ h5 _ ha)

theorem bfsEnqueue_inv [DecidableEq α] (d : Nat) (refs : List α) (st : BfsState α)
    (h : BfsInv st) : BfsInv (bfsEnqueue d refs st) := by
  unfold bfsEnqueue
  induction refs generalizing st with
  | nil => exact h
  | cons r rs ih => exact ih _ (bfsEnqueueOne_inv d st r h)

/-- Dropping the queue head (and possibly counting and yielding it)
preserves the invariant. -/
theorem bfsInv_dequeue {st : BfsState α} {id : α} {d : Nat} {rest : List (α × Nat)}
    (hq : st.queue = (id, d) :: rest) (h : BfsInv st) :
    BfsInv ⟨rest, st.visited, st.processed, st.yields, st.enqueued⟩ := by
  obtain ⟨h1, h2, h3, h4, h5, h6, h7⟩ := h
  rw [hq] at h2 h4 h7
  simp only [List.map_cons, List.nodup_cons] at h2
  refine ⟨h1, h2.2, h3, ?_, h5, h6, ?_⟩
  · intro a ha
    exact h4 _ (by simp [ha])
  · intro a ha
    have := h7 _ ha
    simp only [List.map_cons, List.mem_cons, not_or] at this
    exact this.2

/-- Dequeuing, counting and yielding a (necessarily queued, hence
never-yet-yielded) head preserves the invariant. -/
theorem bfsInv_yield {st : BfsState α} {id : α} {d : Nat} {rest : List (α × Nat)}
    (hq : st.queue = (id, d) :: rest) (h : BfsInv st) :
    BfsInv ⟨rest, st.visited, st.processed + 1, st.yields ++ [id], st.enqueued⟩ := by
  obtain ⟨h1, h2, h3, h4, h5, h6, h7⟩ := h
  rw [hq] at h2 h4 h7
  simp only [List.map_cons, List.nodup_cons] at h2
  refine ⟨h1, h2.2, ?_, ?_, ?_, h6, ?_⟩
  · simp only [List.nodup_append, List.nodup_cons, List.not_mem_nil, not_false_iff,
      List.nodup_nil, and_true, true_and]
    refine ⟨h3, ?_⟩
    intro a ha hmem
    rw [List.mem_singleton] at hmem
    subst hmem
    exact (h7 _ ha) (by simp)
  · intro a ha
    exact h4 _ (by simp [ha])
  · intro a ha
    simp only [List.mem_append, List.mem_singleton] at ha
    rcases ha with ha | rfl_a
    · exact h5 _ ha
    · subst rfl_a
      exact h4 _ (by simp)
  · intro a ha
    simp only [List.mem_append, List.mem_singleton] at ha
    rcases ha with ha | rfl_a
    · have := h7 _ ha
      simp only [List.map_cons, List.mem_cons, not_or] at this
      exact this.2
    · subst rfl_a
      exact h2.1

theorem bfsRun_inv [DecidableEq α] (fetch : FetchOracle α) (maxDepth maxNodes : Nat)
    (fuel : Nat) (st : BfsState α) (h : BfsInv st) :
    BfsInv (bfsRun fetch maxDepth maxNodes fuel st) := by
  induction fuel generalizing st with
  | zero => exact h
  | succ fuel ih =>
    obtain ⟨queue, visited, processed, yields, enqueued⟩ := st
    rcases queue with _ | ⟨⟨id, d⟩, rest⟩
    · simpa only [bfsRun] using h
    · simp only [bfsRun]
      split_ifs with hbudget _hdepth
      · exact h
      · exact ih _ (bfsInv_dequeue rfl h)
      · split
        · exact ih _ (bfsInv_dequeue rfl h)
        · exact ih _ (bfsInv_dequeue rfl h)
        · exact ih _ (bfsEnqueue_inv _ _ _ (bfsInv_yield rfl h))

/-- C9 (spec-modelled): for every fetch oracle, every seed set, every
depth and node budget and every fuel bound, the BFS traversal never
enqueues the same external identifier twice — its enqueue log is
duplicate-free — and consequently every identifier, however many
distinct works cite it, is yielded (processed) at most once. -/
theorem bfs_no_duplicate_enqueue [DecidableEq α] (fetch : FetchOracle α)
    (maxDepth maxNodes fuel : Nat) (seeds : List α) (hseeds : seeds.Nodup) :
    (bfsTraverse fetch maxDepth maxNodes fuel seeds).enqueued.Nodup ∧
    (bfsTraverse fetch maxDepth maxNodes fuel seeds).yields.Nodup ∧
    ∀ a, (bfsTraverse fetch maxDepth maxNodes fuel seeds).yields.count a ≤ 1 := by
  have hinit : BfsInv (⟨seeds.map (fun s => (s, 0)), seeds, 0, [], seeds⟩ : BfsState α) := by
    refine ⟨hseeds, ?_, List.nodup_nil, ?_, ?_, ?_, ?_⟩
    · simpa [List.map_map, Function.comp_def] using hseeds
    · intro a ha
      simpa using ha
    · intro a ha
      simp at ha
    · intro a ha
      exact ha
    · intro a ha
      simp at ha
  have h := bfsRun_inv fetch maxDepth maxNodes fuel _ hinit
  rw [bfsTraverse]
  exact ⟨h.1, h.2.2.1, fun a => List.nodup_iff_count_le_one.mp h.2.2.1 a⟩

/-- Witness for C9: the diamond citation pattern — seeds 0 and 1 both
cite work 2; work 2 is enqueued once and processed exactly once. -/
theorem bfs_no_duplicate_enqueue_witness :
    (bfsTraverse (fun i => if i = 2 then some (some []) else some (some [2])) 3 10 20
        [0, 1]).enqueued.Nodup ∧
    ∀ a, (bfsTraverse (fun i => if i = 2 then some (some []) else some (some [2])) 3 10 20
        [0, 1] : BfsState Nat).yields.count a ≤ 1 := by
  have h := bfs_no_duplicate_enqueue
    (fun i : Nat => if i = 2 then some (some []) else some (some [2])) 3 10 20 [0, 1]
    (by decide)
  exact ⟨h.1, h.2.2⟩

/-! ## Claims about graph assembly -/

theorem foldlM_cons_ok {β γ : Type} {f : β → γ → Except String β} {b : β} {w : γ}
    {ws : List γ} {st : β} (h : (w :: ws).foldlM f b = .ok st) :
    ∃ b', f b w = .ok b' ∧ ws.foldlM f b' = .ok st := by
  rw [List.foldlM_cons] at h
  cases h1 : f b w with
  | error e =>
    rw [h1] at h
    simp only [Bind.bind, Except.bind] at h
    exact absurd h (by simp)
  | ok b' =>
    rw [h1] at h
    simp only [Bind.bind, Except.bind] at h
    exact ⟨b', rfl, h⟩

/-- What a successful loop iteration of `createCitationGraph` did:
the id parsed, the references parsed, and every component of the new
state. -/
theorem assembleStep_ok {keep : List String} {st : AsmState} {w : PyDict} {st' : AsmState}
    (h : assembleStep keep st w = .ok st') :
    ∃ idv oaId refsv rl refs,
      alookup "id" w = some idv ∧ parseOAId idv = .ok oaId ∧
      alookup "referenced_works" w = some refsv ∧ asList refsv = .ok rl ∧
      rl.mapM parseOAId = .ok refs ∧
      st' = ⟨(processPublicationAttributes w keep).foldl (fun a kv => attrAppend a kv.1 kv.2)
          st.nodeAttributes,
        st.nodeReferences ++ [refs], (oaId, st.index2oaIntID.length) :: st.oaIntID2Index,
        st.index2oaIntID ++ [oaId]⟩ := by
  unfold assembleStep getKey at h
  cases h1 : alookup "id" w with
  | none => rw [h1] at h; exact absurd h (by simp)
  | some idv =>
    rw [h1] at h
    dsimp only [] at h
    cases h2 : parseOAId idv with
    | error e => rw [h2] at h; exact absurd h (by simp)
    | ok oaId =>
      rw [h2] at h
      dsimp only [] at h
      cases h3 : alookup "referenced_works" w with
      | none => rw [h3] at h; exact absurd h (by simp)
      | some refsv =>
        rw [h3] at h
        dsimp only [] at h
        cases h4 : asList refsv with
        | error e => rw [h4] at h; exact absurd h (by simp)
        | ok rl =>
          rw [h4] at h
          dsimp only [] at h
          cases h5 : rl.mapM parseOAId with
          | error e => rw [h5] at h; exact absurd h (by simp)
          | ok refs =>
            rw [h5] at h
            dsimp only [] at h
            simp only [Except.ok.injEq] at h
            exact ⟨idv, oaId, refsv, rl, refs, rfl, h2, rfl, h4, h5, h.symm⟩

/-- C5 amended: a record that lacks the `referenced_works` field is not
skipped at all — `createCitationGraph` raises the `KeyError` and the
whole assembly aborts, whatever records follow.  (For the BFS
traversal, whose code is not in the snapshot, the spec-modelled
`bfsRun` does skip such records and continue.) -/
theorem missing_referenced_works_aborts (keep : List String) (w : PyDict)
    (rest : List PyDict) (idv : PyVal) (oaId : Int)
    (hid : alookup "id" w = some idv) (hparse : parseOAId idv = .ok oaId)
    (hmiss : alookup "referenced_works" w = none) :
    createCitationGraph keep (w :: rest) = .error "KeyError: referenced_works" := by
  have hstep : assembleStep keep ⟨[], [], [], []⟩ w = .error "KeyError: referenced_works" := by
    unfold assembleStep getKey
    rw [hid]
    dsimp only []
    rw [hparse]
    dsimp only []
    rw [hmiss]
    rfl
  unfold createCitationGraph assembleState
  rw [List.foldlM_cons, hstep]
  simp only [Bind.bind, Except.bind]

/-- Witness for C5 amended: the concrete record with an id but no
`referenced_works` aborts assembly even though a well-formed record
follows. -/
theorem missing_referenced_works_aborts_witness :
    createCitationGraph ["title"]
      [[("id", .pStr "https://openalex.org/W3")],
       [("id", .pStr "https://openalex.org/W1"), ("referenced_works", .pList [])]] =
      .error "KeyError: referenced_works" :=
  missing_referenced_works_aborts ["title"] [("id", .pStr "https://openalex.org/W3")]
    [[("id", .pStr "https://openalex.org/W1"), ("referenced_works", .pList [])]]
    (.pStr "https://openalex.org/W3") 3 rfl rfl rfl

/-- C5 counterexample: on a stream whose first record lacks
`referenced_works` and whose second record is well formed, assembly
returns the `KeyError` instead of skipping the bad record and building
the one-node graph from the good one — the absence of the field aborts
the whole operation. -/
theorem missing_field_not_skipped_counterexample :
    createCitationGraph ["title"]
      [[("id", .pStr "https://openalex.org/W3")],
       [("id", .pStr "https://openalex.org/W1"), ("referenced_works", .pList []),
        ("title", .pStr "a")]] =
      .error "KeyError: referenced_works" ∧
    ∀ g : IGraph, createCitationGraph ["title"]
      [[("id", .pStr "https://openalex.org/W3")],
       [("id", .pStr "https://openalex.org/W1"), ("referenced_works", .pList []),
        ("title", .pStr "a")]] ≠ .ok g := by
  constructor
  · rfl
  · intro g h
    rw [show createCitationGraph ["title"]
      [[("id", .pStr "https://openalex.org/W3")],
       [("id", .pStr "https://openalex.org/W1"), ("referenced_works", .pList []),
        ("title", .pStr "a")]] = .error "KeyError: referenced_works" from rfl] at h
    exact absurd h (by simp)

theorem attrAppend_lookup (attrs : List (String × List PyVal)) (k k' : String) (v : PyVal) :
    alookup k (attrAppend attrs k' v) =
      if k' = k then some ((alookup k attrs).getD [] ++ [v]) else alookup k attrs := by
  induction attrs with
  | nil =>
    simp only [attrAppend, alookup]
    split_ifs <;> simp
  | cons kv rest ih =>
    obtain ⟨k0, vs⟩ := kv
    by_cases he : k0 = k'
    · subst he
      by_cases hk : k0 = k
      · subst hk
        simp [attrAppend, alookup]
      · simp [attrAppend, alookup, hk]
    · by_cases hk : k0 = k
      · subst hk
        have hne : ¬ k' = k0 := fun hkk => he hkk.symm
        simp [attrAppend, alookup, he, hne]
      · simp [attrAppend, alookup, he, hk, ih]

/-- Folding the projected attribute items of one record appends, for
each attribute name, exactly the values carried under that name. -/
theorem attr_foldl_lookup (items : List (String × PyVal)) (attrs : List (String × List PyVal))
    (k : String) :
    (alookup k (items.foldl (fun a kv => attrAppend a kv.1 kv.2) attrs)).getD [] =
      (alookup k attrs).getD [] ++ ((items.filter (fun kv => kv.1 = k)).map Prod.snd) := by
  induction items generalizing attrs with
  | nil => simp
  | cons kv rest ih =>
    simp only [List.foldl_cons, List.filter_cons]
    rw [ih, attrAppend_lookup]
    by_cases hk : kv.1 = k
    · rw [if_pos hk, if_pos (by simpa using hk)]
      simp
    · rw [if_neg hk, if_neg (by simpa using hk)]

/-- The attribute sequences after assembling a stream, relative to any
starting state: each name receives exactly the values the records carry
under it, in stream order — and nothing for records that lack it. -/
theorem assemble_attrSeq (keep : List String) (ws : List PyDict) :
    ∀ (st0 st : AsmState), ws.foldlM (assembleStep keep) st0 = .ok st → ∀ k : String,
      attrSeq st k = attrSeq st0 k ++ (ws.map (fun w => attrContrib keep w k)).flatten := by
  induction ws with
  | nil =>
    intro st0 st h k
    simp only [List.foldlM_nil] at h
    cases h
    simp
  | cons w rest ih =>
    intro st0 st h k
    obtain ⟨st1, hstep, hrest⟩ := foldlM_cons_ok h
    obtain ⟨idv, oaId, refsv, rl, refs, _, _, _, _, _, hst1⟩ := assembleStep_ok hstep
    have h1 := ih st1 st hrest k
    rw [h1, hst1]
    simp only [attrSeq, attrContrib, List.map_cons, List.flatten_cons]
    rw [attr_foldl_lookup]
    simp [List.append_assoc]

theorem alookup_eq_none_of_not_mem {β : Type} (k : String) (l : List (String × β))
    (h : k ∉ l.map Prod.fst) : alookup k l = none := by
  induction l with
  | nil => rfl
  | cons kv rest ih =>
    simp only [List.map_cons, List.mem_cons, not_or] at h
    simp only [alookup]
    rw [if_neg (fun he => h.1 he.symm)]
    exact ih h.2

/-- One record contributes to attribute `k` exactly its (projected)
value under `k` when it carries `k` in the keep set, and nothing else. -/
theorem attrContrib_cons (keep : List String) (k0 : String) (v : PyVal) (rest : PyDict)
    (k : String) :
    attrContrib keep ((k0, v) :: rest) k =
      (if keep.contains k0 ∧ k0 = k
        then [if isPrimitive v then v else .pStr (jsonDumps v)] else []) ++
        attrContrib keep rest k := by
  by_cases hk : k0 = k
  · subst hk
    by_cases hp : isPrimitive v <;> by_cases hkeep : k0 ∈ keep <;>
      simp [attrContrib, processPublicationAttributes, List.filter_cons, hp, hkeep]
  · by_cases hp : isPrimitive v <;> by_cases hkeep : k0 ∈ keep <;>
      simp [attrContrib, processPublicationAttributes, List.filter_cons, hp, hkeep, hk]

/-- With duplicate-free record keys, one record contributes exactly one
value to attribute `k` when it carries `k` and `k` is kept, and none
otherwise. -/
theorem attrContrib_length (keep : List String) (w : PyDict) (k : String)
    (hnd : (w.map Prod.fst).Nodup) :
    (attrContrib keep w k).length =
      (if (alookup k w).isSome ∧ keep.contains k then 1 else 0) := by
  induction w with
  | nil => simp [attrContrib, processPublicationAttributes, alookup]
  | cons kv rest ih =>
    obtain ⟨k0, v⟩ := kv
    simp only [List.map_cons, List.nodup_cons] at hnd
    rw [attrContrib_cons, List.length_append, ih hnd.2]
    by_cases hk : k0 = k
    · subst hk
      have hrest : alookup k0 rest = none := alookup_eq_none_of_not_mem _ _ hnd.1
      by_cases hkeep : k0 ∈ keep <;> simp [alookup, hrest, hkeep]
    · simp [alookup, hk]

theorem attrContrib_total_length (keep : List String) (k : String) (works : List PyDict)
    (hnd : ∀ w ∈ works, (w.map Prod.fst).Nodup) :
    ((works.map (fun w => attrContrib keep w k)).flatten).length =
      (works.filter (fun w => (alookup k w).isSome && keep.contains k)).length := by
  induction works with
  | nil => simp
  | cons w rest ih =>
    simp only [List.map_cons, List.flatten_cons, List.length_append, List.filter_cons]
    rw [attrContrib_length keep w k (hnd w (by simp)),
      ih (fun w' hw' => hnd w' (by simp [hw']))]
    by_cases hc : (alookup k w).isSome ∧ keep.contains k
    · rw [if_pos hc, if_pos (by rw [Bool.and_eq_true]; exact hc)]
      simp only [List.length_cons]
      omega
    · rw [if_neg hc, if_neg (by rw [Bool.and_eq_true]; exact hc)]
      omega

/-- C1 counterexample: a two-record stream whose second record lacks
the kept attribute `title` assembles successfully into a state with two
nodes but a `title` sequence of length 1 — no empty marker was appended
for the absent attribute, so the sequence is not `N` long. -/
theorem attr_alignment_counterexample :
    assembleState ["title"]
      [[("id", .pStr "https://openalex.org/W1"), ("referenced_works", .pList []),
        ("title", .pStr "a")],
       [("id", .pStr "https://openalex.org/W2"), ("referenced_works", .pList [])]] =
      .ok ⟨[("title", [.pStr "a"])], [[], []], [(2, 1), (1, 0)], [1, 2]⟩ ∧
    (attrSeq ⟨[("title", [.pStr "a"])], [[], []], [(2, 1), (1, 0)], [1, 2]⟩ "title").length = 1 ∧
    ([1, 2] : List Int).length = 2 ∧ (1 : Nat) ≠ 2 :=
  ⟨rfl, rfl, rfl, by decide⟩

/-- C1 amended: after assembly consumes a stream, each attribute's
per-node sequence holds exactly the values of the records that carry
that attribute, in stream order: no empty marker is appended when a
kept attribute is absent from a record, so the sequence length equals
the number of records carrying that attribute (within the keep set),
not the number of records consumed — the sequences are `N` long and
index-aligned only when every record carries every kept attribute. -/
theorem attr_sequences_follow_presence (keep : List String) (works : List PyDict)
    (st : AsmState) (hok : assembleState keep works = .ok st)
    (hnd : ∀ w ∈ works, (w.map Prod.fst).Nodup) (k : String) :
    attrSeq st k = (works.map (fun w => attrContrib keep w k)).flatten ∧
    (attrSeq st k).length =
      (works.filter (fun w => (alookup k w).isSome && keep.contains k)).length := by
  have h1 := assemble_attrSeq keep works ⟨[], [], [], []⟩ st hok k
  simp only [show attrSeq (⟨[], [], [], []⟩ : AsmState) k = [] from rfl,
    List.nil_append] at h1
  exact ⟨h1, by rw [h1, attrContrib_total_length keep k works hnd]⟩

/-- Witness for C1 amended at the counterexample stream: the `title`
sequence is exactly the one value carried by the one record that has a
`title`. -/
theorem attr_sequences_follow_presence_witness :
    (attrSeq (⟨[("title", [.pStr "a"])], [[], []], [(2, 1), (1, 0)], [1, 2]⟩ : AsmState)
        "title").length =
      (([[("id", PyVal.pStr "https://openalex.org/W1"), ("referenced_works", .pList []),
           ("title", .pStr "a")],
         [("id", PyVal.pStr "https://openalex.org/W2"),
          ("referenced_works", .pList [])]] : List PyDict).filter
        (fun w => (alookup "title" w).isSome && (["title"] : List String).contains
          "title")).length :=
  (attr_sequences_follow_presence ["title"]
    [[("id", PyVal.pStr "https://openalex.org/W1"), ("referenced_works", .pList []),
      ("title", .pStr "a")],
     [("id", PyVal.pStr "https://openalex.org/W2"), ("referenced_works", .pList [])]]
    ⟨[("title", [.pStr "a"])], [[], []], [(2, 1), (1, 0)], [1, 2]⟩ rfl (by decide) "title").2

theorem mem_of_alookup_eq_some {κ β : Type} [DecidableEq κ] {k : κ} {l : List (κ × β)} {v : β}
    (h : alookup k l = some v) : (k, v) ∈ l := by
  induction l with
  | nil => exact absurd h (by simp [alookup])
  | cons kv rest ih =>
    obtain ⟨k1, v1⟩ := kv
    rw [alookup] at h
    split_ifs at h with he
    · cases h
      simp [he]
    · simp [ih h]

/-- What one assembly pass guarantees about the id-to-index mapping and
the state sizes, relative to any starting state. -/
theorem assemble_index (keep : List String) (ws : List PyDict) :
    ∀ (st0 st : AsmState), ws.foldlM (assembleStep keep) st0 = .ok st →
      st.index2oaIntID.length = st0.index2oaIntID.length + ws.length ∧
      st.nodeReferences.length = st0.nodeReferences.length + ws.length ∧
      (∀ p ∈ st.oaIntID2Index, p ∈ st0.oaIntID2Index ∨
        (p.2 < st.index2oaIntID.length ∧ p.1 ∈ assembledIds ws)) := by
  induction ws with
  | nil =>
    intro st0 st h
    simp only [List.foldlM_nil] at h
    cases h
    exact ⟨by simp, by simp, fun p hp => Or.inl hp⟩
  | cons w rest ih =>
    intro st0 st h
    obtain ⟨st1, hstep, hrest⟩ := foldlM_cons_ok h
    obtain ⟨idv, oaId, refsv, rl, refs, hid, hparse, hrw, hlist, hmapm, hst1⟩ :=
      assembleStep_ok hstep
    obtain ⟨ih1, ih2, ih3⟩ := ih st1 st hrest
    have hids : assembledIds (w :: rest) = oaId :: assembledIds rest := by
      simp only [assembledIds, List.filterMap_cons, hid, hparse]
    have hlen1 : st1.index2oaIntID.length = st0.index2oaIntID.length + 1 := by
      rw [hst1]
      simp
    have hrefs1 : st1.nodeReferences.length = st0.nodeReferences.length + 1 := by
      rw [hst1]
      simp
    refine ⟨by simp only [List.length_cons]; omega, by simp only [List.length_cons]; omega, ?_⟩
    intro p hp
    rcases ih3 p hp with hmem | hnew
    · rw [hst1] at hmem
      simp only [List.mem_cons] at hmem
      rcases hmem with rfl | hmem
      · right
        refine ⟨by omega, ?_⟩
        rw [hids]
        simp
      · left
        exact hmem
    · right
      refine ⟨hnew.1, ?_⟩
      rw [hids]
      simp [hnew.2]

/-- Every edge produced by the reference-resolution pass cites a mapped
identifier and originates from a buffered-record position. -/
theorem buildEdgesGo_mem (m : List (Int × Nat)) (refsList : List (List Int)) :
    ∀ (i0 : Nat) (e : Int × Int), e ∈ buildEdgesGo m i0 refsList →
      (∃ j : Nat, i0 ≤ j ∧ j < i0 + refsList.length ∧ e.1 = (j : Int)) ∧
      (∃ x idx, alookup x m = some idx ∧ e.2 = (idx : Int)) := by
  induction refsList with
  | nil => intro i0 e h; exact absurd h (by simp [buildEdgesGo])
  | cons rs rest ih =>
    intro i0 e h
    rw [buildEdgesGo, List.mem_append] at h
    rcases h with h | h
    · rw [List.mem_filterMap] at h
      obtain ⟨r, _, hr⟩ := h
      cases hidx : alookup r m with
      | none => rw [hidx] at hr; exact absurd hr (by simp)
      | some idx =>
        rw [hidx] at hr
        rw [show (some idx).map (fun (j : Nat) => ((i0 : Int), (j : Int))) =
          some ((i0 : Int), (idx : Int)) from rfl, Option.some.injEq] at hr
        subst hr
        exact ⟨⟨i0, le_refl _, by simp, rfl⟩, r, idx, hidx, rfl⟩
    · obtain ⟨⟨j, hj1, hj2, hj3⟩, hx⟩ := ih (i0 + 1) e h
      exact ⟨⟨j, by omega, by simp only [List.length_cons]; omega, hj3⟩, hx⟩

theorem foldl_max_eq (edges : List (Int × Int)) :
    ∀ acc, (∀ e ∈ edges, e.1.toNat + 1 ≤ acc ∧ e.2.toNat + 1 ≤ acc) →
      edges.foldl (fun m e => max m (max (e.1.toNat + 1) (e.2.toNat + 1))) acc = acc := by
  induction edges with
  | nil => intro acc _; rfl
  | cons e rest ih =>
    intro acc h
    have he := h e (by simp)
    rw [List.foldl_cons]
    have hmax : max acc (max (e.1.toNat + 1) (e.2.toNat + 1)) = acc := by omega
    rw [hmax]
    exact ih acc (fun e' he' => h e' (by simp [he']))

/-- When every endpoint is a valid vertex id below `n`, the igraph
constructor succeeds without growing `n`. -/
theorem mkGraph_ok (n : Nat) (edges : List (Int × Int)) (attrs : List (String × List PyVal))
    (h : ∀ e ∈ edges, 0 ≤ e.1 ∧ e.1.toNat < n ∧ 0 ≤ e.2 ∧ e.2.toNat < n) :
    mkGraph n edges attrs = .ok ⟨n, edges.map (fun e => (e.1.toNat, e.2.toNat)), attrs⟩ := by
  unfold mkGraph
  rw [if_pos]
  · rw [igraphN, foldl_max_eq edges n (fun e he => ⟨(h e he).2.1, (h e he).2.2.2⟩)]
  · rw [List.all_eq_true]
    intro e he
    rw [Bool.and_eq_true, decide_eq_true_eq, decide_eq_true_eq]
    exact ⟨(h e he).1, (h e he).2.2.1⟩

/-- C6: the assembled graph contains one node per record and nothing
else — a referenced identifier that never occurs as a record id
produces no node (the node count is the record count) and no edge:
every edge endpoint is a valid dense index below `N`, every mapped
identifier is some record's id, and every edge's cited endpoint is the
mapped index of such an identifier. -/
theorem unseen_references_dropped (keep : List String) (works : List PyDict)
    (st : AsmState) (g : IGraph)
    (hst : assembleState keep works = .ok st)
    (hg : createCitationGraph keep works = .ok g) :
    g.n = works.length ∧
    (∀ e ∈ g.edges, e.1 < g.n ∧ e.2 < g.n) ∧
    (∀ p ∈ st.oaIntID2Index, p.1 ∈ assembledIds works) ∧
    (∀ e ∈ g.edges, ∃ x, alookup x st.oaIntID2Index = some e.2) := by
  obtain ⟨hlen, hreflen, hmap⟩ := assemble_index keep works ⟨[], [], [], []⟩ st hst
  simp only [List.length_nil, Nat.zero_add] at hlen hreflen
  have hmap' : ∀ p ∈ st.oaIntID2Index, p.2 < st.index2oaIntID.length ∧
      p.1 ∈ assembledIds works := by
    intro p hp
    rcases hmap p hp with hmem | hnew
    · exact absurd hmem (by simp)
    · exact hnew
  have hedge : ∀ e ∈ buildEdgesGo st.oaIntID2Index 0 st.nodeReferences,
      0 ≤ e.1 ∧ e.1.toNat < st.index2oaIntID.length ∧ 0 ≤ e.2 ∧
        e.2.toNat < st.index2oaIntID.length ∧
        ∃ x idx, alookup x st.oaIntID2Index = some idx ∧ e.2 = (idx : Int) := by
    intro e he
    obtain ⟨⟨j, _, hj2, hj3⟩, x, idx, hidx, hidx2⟩ := buildEdgesGo_mem _ _ 0 e he
    have hjlt : j < st.index2oaIntID.length := by omega
    have hvlt : idx < st.index2oaIntID.length :=
      (hmap' _ (mem_of_alookup_eq_some hidx)).1
    refine ⟨by omega, ?_, by omega, ?_, x, idx, hidx, hidx2⟩
    · rw [hj3]
      simpa using hjlt
    · rw [hidx2]
      simpa using hvlt
  unfold createCitationGraph at hg
  rw [hst] at hg
  dsimp only [] at hg
  rw [mkGraph_ok _ _ _ (fun e he => ⟨(hedge e he).1, (hedge e he).2.1, (hedge e he).2.2.1,
    (hedge e he).2.2.2.1⟩)] at hg
  cases hg
  refine ⟨hlen, ?_, fun p hp => (hmap' p hp).2, ?_⟩
  · intro e he
    rw [List.mem_map] at he
    obtain ⟨e', he', rfl⟩ := he
    exact ⟨(hedge e' he').2.1, (hedge e' he').2.2.2.1⟩
  · intro e he
    rw [List.mem_map] at he
    obtain ⟨e', he', rfl⟩ := he
    obtain ⟨x, idx, hidx, hidx2⟩ := (hedge e' he').2.2.2.2
    refine ⟨x, ?_⟩
    rw [hidx]
    rw [hidx2]
    simp

/-- Witness for C6: the two-record stream where record `W2` cites the
never-retrieved `W99` — the graph has two nodes and the single edge
`0 → 1`; `99` yields neither node nor edge. -/
theorem unseen_references_dropped_witness :
    (⟨2, [(0, 1)], [("title", [.pStr "a"])]⟩ : IGraph).n = 2 ∧
    ∀ e ∈ (⟨2, [(0, 1)], [("title", [.pStr "a"])]⟩ : IGraph).edges,
      e.1 < 2 ∧ e.2 < 2 := by
  have h := unseen_references_dropped ["title"]
    [[("id", PyVal.pStr "https://openalex.org/W1"),
      ("referenced_works", .pList [.pStr "https://openalex.org/W2"]),
      ("title", .pStr "a")],
     [("id", PyVal.pStr "https://openalex.org/W2"),
      ("referenced_works", .pList [.pStr "https://openalex.org/W99"])]]
    ⟨[("title", [.pStr "a"])], [[2], [99]], [(2, 1), (1, 0)], [1, 2]⟩
    ⟨2, [(0, 1)], [("title", [.pStr "a"])]⟩ rfl rfl
  exact ⟨h.1, h.2.1⟩

/-! ## Claims about the flat-file codec -/

theorem digitChar_facts (d : Nat) (hd : d < 10) :
    digitVal? (digitChar d) = some d ∧ digitChar d ≠ '-' ∧ digitChar d ≠ ':' := by
  interval_cases d <;> exact ⟨by decide, by decide, by decide⟩

theorem parseDigits_append_digit (cs : List Char) (hne : cs ≠ []) (a : Nat)
    (hcs : parseDigits? cs = some a) (d : Nat) (hd : d < 10) :
    parseDigits? (cs ++ [digitChar d]) = some (a * 10 + d) := by
  rcases cs with _ | ⟨c, cs'⟩
  · exact absurd rfl hne
  · have hcs' : List.foldlM (fun acc c => (digitVal? c).map (fun d => acc * 10 + d)) 0
        (c :: cs') = some a := hcs
    show List.foldlM (fun acc c => (digitVal? c).map (fun d => acc * 10 + d)) 0
      ((c :: cs') ++ [digitChar d]) = some (a * 10 + d)
    rw [List.foldlM_append, hcs']
    simp [(digitChar_facts d hd).1]

theorem natReprGo_spec (fuel : Nat) : ∀ n : Nat, n < fuel →
    natReprGo fuel n ≠ [] ∧ (∀ c ∈ natReprGo fuel n, ∃ d, d < 10 ∧ c = digitChar d) ∧
    parseDigits? (natReprGo fuel n) = some n := by
  induction fuel with
  | zero => intro n hn; omega
  | succ fuel ih =>
    intro n hn
    rw [natReprGo]
    split_ifs with h10
    · refine ⟨by simp, ?_, ?_⟩
      · intro c hc
        rw [List.mem_singleton] at hc
        exact ⟨n, h10, hc⟩
      · unfold parseDigits?
        simp [(digitChar_facts n h10).1]
    · have hdiv : n / 10 < fuel := by omega
      obtain ⟨ih1, ih2, ih3⟩ := ih (n / 10) hdiv
      refine ⟨by simp [ih1], ?_, ?_⟩
      · intro c hc
        rw [List.mem_append] at hc
        rcases hc with hc | hc
        · exact ih2 c hc
        · rw [List.mem_singleton] at hc
          exact ⟨n % 10, by omega, hc⟩
      · rw [parseDigits_append_digit _ ih1 _ ih3 _ (by omega)]
        congr 1
        omega

theorem toList_mk (cs : List Char) : (String.mk cs).toList = cs := rfl

theorem pyIntChars_of_head_ne (c : Char) (cs : List Char) (hc : c ≠ '-') :
    pyIntChars? (c :: cs) = (parseDigits? (c :: cs)).map (fun n => (n : Int)) := by
  unfold pyIntChars?
  split
  · rename_i heq
    rw [List.cons.injEq] at heq
    exact absurd heq.1 hc
  · rfl

theorem pyInt_natRepr (n : Nat) : pyInt? (natRepr n) = some (n : Int) := by
  obtain ⟨h1, h2, h3⟩ := natReprGo_spec (n + 1) n (by omega)
  rw [pyInt?, natRepr, toList_mk]
  rcases hcs : natReprGo (n + 1) n with _ | ⟨c, cs'⟩
  · exact absurd hcs h1
  · obtain ⟨d, hd, hcd⟩ := h2 c (by rw [hcs]; simp)
    rw [pyIntChars_of_head_ne c cs' (hcd ▸ (digitChar_facts d hd).2.1), ← hcs, h3]
    rfl

theorem pyInt_intRepr (m : Int) : pyInt? (intRepr m) = some m := by
  unfold intRepr
  split_ifs with hm
  · have : (("-" ++ natRepr m.natAbs : String)).toList = '-' :: (natRepr m.natAbs).toList := rfl
    rw [pyInt?, this, natRepr, toList_mk]
    obtain ⟨_, _, h3⟩ := natReprGo_spec (m.natAbs + 1) m.natAbs (by omega)
    rw [show pyIntChars? ('-' :: natReprGo (m.natAbs + 1) m.natAbs) =
      (parseDigits? (natReprGo (m.natAbs + 1) m.natAbs)).map (fun n => -(n : Int)) from rfl, h3]
    show (some (-(m.natAbs : Int)) : Option Int) = some m
    rw [Option.some.injEq]
    omega
  · rw [pyInt_natRepr]
    simp only [Option.some.injEq]
    omega

theorem natRepr_toList_ne_nil (n : Nat) : (natRepr n).toList ≠ [] := by
  rw [natRepr, toList_mk]
  exact (natReprGo_spec (n + 1) n (by omega)).1

theorem colon_not_mem_natRepr (n : Nat) : ':' ∉ (natRepr n).toList := by
  rw [natRepr, toList_mk]
  intro hmem
  obtain ⟨d, hd, hcd⟩ := (natReprGo_spec (n + 1) n (by omega)).2.1 ':' hmem
  exact (digitChar_facts d hd).2.2 hcd.symm

theorem splitChar_ne_nil (sep : Char) (cs : List Char) : splitChar sep cs ≠ [] := by
  induction cs with
  | nil => simp [splitChar]
  | cons c rest ih =>
    rw [splitChar]
    split_ifs
    · simp
    · rcases h : splitChar sep rest with _ | ⟨p, ps⟩
      · exact absurd h ih
      · simp [h]

theorem splitChar_no_sep (sep : Char) (p : List Char) (hp : sep ∉ p) :
    splitChar sep p = [p] := by
  induction p with
  | nil => rfl
  | cons c rest ih =>
    rw [List.mem_cons, not_or] at hp
    rw [splitChar, if_neg (fun he => hp.1 he.symm)]
    · rw [ih hp.2]

theorem splitChar_append_sep (sep : Char) (p t : List Char) (hp : sep ∉ p) :
    splitChar sep (p ++ sep :: t) = p :: splitChar sep t := by
  induction p with
  | nil =>
    rw [List.nil_append, splitChar, if_pos rfl]
  | cons c rest ih =>
    rw [List.mem_cons, not_or] at hp
    rw [List.cons_append, splitChar, if_neg (fun he => hp.1 he.symm), ih hp.2]

theorem splitChar_joinChar (sep : Char) (parts : List (List Char)) (hne : parts ≠ [])
    (hsep : ∀ p ∈ parts, sep ∉ p) : splitChar sep (joinChar sep parts) = parts := by
  induction parts with
  | nil => exact absurd rfl hne
  | cons p rest ih =>
    rcases rest with _ | ⟨p2, ps⟩
    · rw [joinChar]
      exact splitChar_no_sep sep p (hsep p (by simp))
    · rw [joinChar, splitChar_append_sep sep p _ (hsep p (by simp)),
        ih (List.cons_ne_nil p2 ps) (fun q hq => hsep q (by simp [hq]))]
      simp

theorem mapM_pyInt_natRepr (js : List Nat) :
    (js.map natRepr).mapM (fun r =>
      match pyInt? r with
      | some n => Except.ok n
      | none => Except.error "ValueError: invalid literal for int") =
      (.ok (js.map (fun (j : Nat) => (j : Int))) : Except String (List Int)) := by
  induction js with
  | nil => rfl
  | cons j js ih =>
    rw [List.map_cons, List.mapM_cons, pyInt_natRepr]
    rw [show ((match some ((j : Nat) : Int) with
      | some n => Except.ok n
      | none => Except.error "ValueError: invalid literal for int") : Except String Int) =
      .ok ((j : Nat) : Int) from rfl]
    rw [show ((js.map natRepr).mapM (fun r =>
      match pyInt? r with
      | some n => Except.ok n
      | none => Except.error "ValueError: invalid literal for int")) =
      (.ok (js.map (fun (j : Nat) => (j : Int))) : Except String (List Int)) from ih]
    rfl

/-- Decoding the references cell written for a successor list recovers
exactly that list. -/
theorem parseRefs_join (js : List Nat) :
    parseRefs (pyJoin ':' (js.map natRepr)) = .ok (js.map (fun (j : Nat) => (j : Int))) := by
  rcases js with _ | ⟨j, js'⟩
  · rfl
  · have hjoin : (pyJoin ':' ((j :: js').map natRepr)).toList =
        joinChar ':' (((j :: js').map natRepr).map String.toList) := rfl
    have hns : pyJoin ':' ((j :: js').map natRepr) ≠ "" := by
      intro h
      have hd : (pyJoin ':' ((j :: js').map natRepr)).toList = [] := by rw [h]; rfl
      rw [hjoin] at hd
      rcases js' with _ | ⟨j2, js2⟩
      · exact natRepr_toList_ne_nil j (by simpa [joinChar] using hd)
      · simp only [List.map_cons, joinChar] at hd
        rcases hcs : (natRepr j).toList with _ | ⟨c, cs⟩
        · exact natRepr_toList_ne_nil j hcs
        · rw [hcs] at hd
          exact absurd hd (by simp)
    unfold parseRefs
    rw [if_neg hns]
    have hsplit : pySplit ':' (pyJoin ':' ((j :: js').map natRepr)) =
        (j :: js').map natRepr := by
      unfold pySplit
      rw [hjoin, splitChar_joinChar ':' _ (by simp)]
      · rw [List.map_map, List.map_map]
        rfl
      · intro p hp
        rw [List.map_map, List.mem_map] at hp
        obtain ⟨x, _, rfl⟩ := hp
        exact colon_not_mem_natRepr x
    rw [hsplit]
    exact mapM_pyInt_natRepr (j :: js')

/-- Decoding the cell encoded for an attribute value recovers the value,
for non-structured columns holding strings and a `publication_year`
column holding integers. -/
theorem coerce_encode_cell (k : String) (v : PyVal) (hres : k ∉ structuredKeys)
    (hv : if k = "publication_year" then ∃ m : Int, v = .pInt m
      else ∃ s : String, v = .pStr s) :
    coerceCell k (encodeCell v) = .ok v := by
  by_cases hk : k = "publication_year"
  · rw [if_pos hk] at hv
    obtain ⟨m, rfl⟩ := hv
    subst hk
    unfold coerceCell
    rw [if_pos rfl, show encodeCell (.pInt m) = intRepr m from rfl, pyInt_intRepr]
  · rw [if_neg hk] at hv
    obtain ⟨str, rfl⟩ := hv
    unfold coerceCell
    rw [if_neg hk, if_neg hres]
    rfl

theorem decodeRowItems_skip_head (st : List (String × List PyVal)) (c : String)
    (cell : String) (items : List (String × String)) (hc : c = "pub" ∨ c = "references") :
    decodeRowItems st ((c, cell) :: items) = decodeRowItems st items := by
  unfold decodeRowItems
  rw [List.foldlM_cons,
    show decodeRowItem st (c, cell) = .ok st from by unfold decodeRowItem; rw [if_pos hc]]
  rfl

/-- Decoding one row's attribute columns performs the pure
`attrAppend` fold of the encoded values. -/
theorem decodeRowItems_attrs (i : Nat) (attrsL : List (String × List PyVal)) :
    ∀ st : List (String × List PyVal),
      (∀ kv ∈ attrsL, kv.1 ≠ "pub" ∧ kv.1 ≠ "references" ∧ kv.1 ∉ structuredKeys) →
      (∀ kv ∈ attrsL, if kv.1 = "publication_year" then ∃ m : Int, valAt i kv = .pInt m
        else ∃ s : String, valAt i kv = .pStr s) →
      decodeRowItems st (attrsL.map (fun kv => (kv.1, encodeCell (valAt i kv)))) =
        .ok ((attrsL.map (fun kv => (kv.1, valAt i kv))).foldl
          (fun a kv => attrAppend a kv.1 kv.2) st) := by
  induction attrsL with
  | nil => intro st _ _; rfl
  | cons kv rest ih =>
    intro st hres hv
    simp only [List.map_cons, List.foldl_cons]
    have hstep : decodeRowItem st (kv.1, encodeCell (valAt i kv)) =
        .ok (attrAppend st kv.1 (valAt i kv)) := by
      unfold decodeRowItem
      rw [if_neg (by
        obtain ⟨h1, h2, _⟩ := hres kv (by simp)
        rintro (h | h) <;> [exact h1 h; exact h2 h]),
        coerce_encode_cell kv.1 (valAt i kv) (hres kv (by simp)).2.2 (hv kv (by simp))]
    unfold decodeRowItems
    rw [List.foldlM_cons, hstep]
    exact ih (attrAppend st kv.1 (valAt i kv))
      (fun kv' h => hres kv' (by simp [h])) (fun kv' h => hv kv' (by simp [h]))

theorem foldl_attrAppend_cons_ne (items : List (String × PyVal)) :
    ∀ (h : String × List PyVal) (t : List (String × List PyVal)),
      (∀ kv ∈ items, kv.1 ≠ h.1) →
      items.foldl (fun a kv => attrAppend a kv.1 kv.2) (h :: t) =
        h :: items.foldl (fun a kv => attrAppend a kv.1 kv.2) t := by
  induction items with
  | nil => intros; rfl
  | cons kv rest ih =>
    intro h t hne
    rw [List.foldl_cons, List.foldl_cons]
    have hstep : attrAppend (h :: t) kv.1 kv.2 = h :: attrAppend t kv.1 kv.2 := by
      obtain ⟨hk, hvs⟩ := h
      rw [attrAppend, if_neg (fun he => hne kv (by simp) he.symm)]
    rw [hstep]
    exact ih h (attrAppend t kv.1 kv.2) (fun kv' h' => hne kv' (by simp [h']))

/-- Extending per-name sequences: folding one row's items into an
accumulator keyed exactly by the attribute names appends one value per
name. -/
theorem attrFold_extend (attrsL : List (String × List PyVal))
    (hnd : (attrsL.map Prod.fst).Nodup) (F : (String × List PyVal) → List PyVal)
    (V : (String × List PyVal) → PyVal) :
    (attrsL.map (fun kv => (kv.1, V kv))).foldl (fun a kv => attrAppend a kv.1 kv.2)
      (attrsL.map (fun kv => (kv.1, F kv))) =
      attrsL.map (fun kv => (kv.1, F kv ++ [V kv])) := by
  induction attrsL with
  | nil => rfl
  | cons kv rest ih =>
    simp only [List.map_cons, List.nodup_cons] at hnd ⊢
    rw [List.foldl_cons,
      show attrAppend ((kv.1, F kv) :: rest.map (fun kv => (kv.1, F kv))) kv.1 (V kv) =
        (kv.1, F kv ++ [V kv]) :: rest.map (fun kv => (kv.1, F kv)) from by
        rw [attrAppend, if_pos rfl],
      foldl_attrAppend_cons_ne _ _ _ (by
        intro kv' hkv'
        rw [List.mem_map] at hkv'
        obtain ⟨x, hx, rfl⟩ := hkv'
        intro he
        exact hnd.1 (he ▸ List.mem_map_of_mem Prod.fst hx)),
      ih hnd.2]

/-- Creating per-name sequences: folding the first row's items into the
empty accumulator creates one singleton sequence per name. -/
theorem attrFold_from_nil (attrsL : List (String × List PyVal))
    (hnd : (attrsL.map Prod.fst).Nodup) (V : (String × List PyVal) → PyVal) :
    (attrsL.map (fun kv => (kv.1, V kv))).foldl (fun a kv => attrAppend a kv.1 kv.2) [] =
      attrsL.map (fun kv => (kv.1, [V kv])) := by
  induction attrsL with
  | nil => rfl
  | cons kv rest ih =>
    simp only [List.map_cons, List.nodup_cons] at hnd ⊢
    rw [List.foldl_cons, show attrAppend [] kv.1 (V kv) = [(kv.1, [V kv])] from rfl,
      foldl_attrAppend_cons_ne _ _ _ (by
        intro kv' hkv'
        rw [List.mem_map] at hkv'
        obtain ⟨x, hx, rfl⟩ := hkv'
        intro he
        exact hnd.1 (he ▸ List.mem_map_of_mem Prod.fst hx)),
      ih hnd.2]

theorem get?_eq_some_getD {α : Type} (d : α) : ∀ (l : List α) (i : Nat), i < l.length →
    l.get? i = some (l.getD i d) := by
  intro l
  induction l with
  | nil => intro i hi; simp at hi
  | cons a rest ih =>
    intro i hi
    cases i with
    | zero => rfl
    | succ i =>
      simp only [List.length_cons] at hi
      exact ih i (by omega)

theorem getD_mem {α : Type} (d : α) (l : List α) (i : Nat) (hi : i < l.length) :
    l.getD i d ∈ l :=
  List.get?_mem (get?_eq_some_getD d l i hi)

theorem range_map_getD {α : Type} (d : α) (l : List α) :
    (List.range l.length).map (fun i => l.getD i d) = l := by
  induction l with
  | nil => rfl
  | cons a rest ih =>
    rw [List.length_cons, List.range_succ_eq_map, List.map_cons, List.map_map]
    have h2 : (List.range rest.length).map ((fun i => (a :: rest).getD i d) ∘ Nat.succ) =
        rest := by
      rw [show ((fun i => (a :: rest).getD i d) ∘ Nat.succ) = fun i => rest.getD i d from rfl]
      exact ih
    rw [h2]
    rfl

theorem mem_successors (g : IGraph) (a j : Nat) : j ∈ successors g a ↔ (a, j) ∈ g.edges := by
  unfold successors
  rw [List.mem_map]
  constructor
  · rintro ⟨e, he, rfl⟩
    rw [List.mem_filter, decide_eq_true_eq] at he
    obtain ⟨e1, e2⟩ := e
    cases he.2
    exact he.1
  · intro h
    exact ⟨(a, j), by rw [List.mem_filter, decide_eq_true_eq]; exact ⟨h, rfl⟩, rfl⟩

theorem setInsert_of_not_mem (s : List Int) (x : Int) (hx : x ∉ s) :
    setInsert s x = s ++ [x] := by
  rw [setInsert, if_neg (by simpa using hx)]

theorem foldl_setInsert_length : ∀ (l : List Nat) (s : List Int), l.Nodup →
    (∀ x ∈ l, (x : Int) ∉ s) →
    (l.foldl (fun (s : List Int) (i : Nat) => setInsert s (i : Int)) s).length =
      s.length + l.length := by
  intro l
  induction l with
  | nil => intro s _ _; simp
  | cons i rest ih =>
    intro s hnd hfresh
    rw [List.nodup_cons] at hnd
    rw [List.foldl_cons, setInsert_of_not_mem s (i : Int) (hfresh i (by simp)),
      ih (s ++ [(i : Int)]) hnd.2 ?fresh]
    · simp only [List.length_append, List.length_cons, List.length_nil]
      omega
    case fresh =>
      intro x hx
      rw [List.mem_append, List.mem_singleton]
      push_neg
      refine ⟨hfresh x (by simp [hx]), ?_⟩
      intro he
      exact hnd.1 (by
        have : x = i := by exact_mod_cast he
        rw [← this]
        exact hx)

theorem alookup_cons_self {β : Type} (k : String) (v : β) (rest : List (String × β)) :
    alookup k ((k, v) :: rest) = some v := by
  rw [alookup, if_pos rfl]

theorem alookup_cons_ne {β : Type} (k k' : String) (h : ¬ k' = k) (v : β)
    (rest : List (String × β)) : alookup k ((k', v) :: rest) = alookup k rest := by
  rw [alookup, if_neg h]

/-- Decoding the encoded row of vertex `i` parses the index back, turns
the colon-joined successor field back into the out-edges of `i`, and
appends the decoded attribute cells. -/
theorem decodeRow_encodeRow (g : IGraph) (i : Nat) (st : DecState)
    (A : List (String × List PyVal))
    (hlen : ∀ kv ∈ g.vertexAttrs, kv.2.length = g.n) (hi : i < g.n)
    (hitems : decodeRowItems st.nodeAttributes
      (g.vertexAttrs.map (fun kv => (kv.1, encodeCell (valAt i kv)))) = .ok A) :
    decodeRow ("pub" :: "references" :: g.vertexAttrs.map Prod.fst) st (encodeRow g i) =
      .ok ⟨st.citationEdges ++ (successors g i).map (fun (j : Nat) => ((i : Int), (j : Int))), A,
        setInsert st.nodes (i : Int)⟩ := by
  have hcells : attrCellsFor g i = g.vertexAttrs.map (fun kv => encodeCell (valAt i kv)) := by
    unfold attrCellsFor
    apply List.map_congr_left
    intro kv hkv
    rw [get?_eq_some_getD PyVal.pNone kv.2 i (by rw [hlen kv hkv]; exact hi)]
    rfl
  unfold decodeRow encodeRow
  rw [hcells]
  dsimp only []
  rw [List.zip_cons_cons, List.zip_cons_cons, alookup_cons_self,
    alookup_cons_ne "references" "pub" (by decide), alookup_cons_self]
  dsimp only []
  rw [pyInt_natRepr]
  dsimp only []
  rw [parseRefs_join]
  dsimp only []
  rw [decodeRowItems_skip_head _ _ _ _ (Or.inl rfl),
    decodeRowItems_skip_head _ _ _ _ (Or.inr rfl), List.zip_map', hitems]
  dsimp only []
  rw [List.map_map]
  rfl

theorem except_ok_bind {α β : Type} (a : α) (f : α → Except String β) :
    ((Except.ok a : Except String α) >>= f) = f a := rfl

/-- Decoding one encoded row when the accumulator already holds one
sequence per attribute name. -/
theorem decodeRow_keyed (g : IGraph) (i : Nat) (hi : i < g.n)
    (hlen : ∀ kv ∈ g.vertexAttrs, kv.2.length = g.n)
    (hnd : (g.vertexAttrs.map Prod.fst).Nodup)
    (hres : ∀ kv ∈ g.vertexAttrs, kv.1 ≠ "pub" ∧ kv.1 ≠ "references" ∧
      kv.1 ∉ structuredKeys)
    (hvals : ∀ kv ∈ g.vertexAttrs, ∀ v ∈ kv.2, if kv.1 = "publication_year"
      then ∃ m : Int, v = .pInt m else ∃ s : String, v = .pStr s)
    (st : DecState) (F : (String × List PyVal) → List PyVal)
    (hacc : st.nodeAttributes = g.vertexAttrs.map (fun kv => (kv.1, F kv))) :
    decodeRow ("pub" :: "references" :: g.vertexAttrs.map Prod.fst) st (encodeRow g i) =
      .ok ⟨st.citationEdges ++ (successors g i).map (fun (j : Nat) => ((i : Int), (j : Int))),
        g.vertexAttrs.map (fun kv => (kv.1, F kv ++ [valAt i kv])),
        setInsert st.nodes (i : Int)⟩ := by
  apply decodeRow_encodeRow g i st _ hlen hi
  rw [hacc, decodeRowItems_attrs i g.vertexAttrs _ hres
    (fun kv hkv => hvals kv hkv _ (getD_mem _ _ _ (by rw [hlen kv hkv]; exact hi))),
    attrFold_extend g.vertexAttrs hnd F (valAt i)]

/-- Decoding the first encoded row from the empty accumulator. -/
theorem decodeRow_first (g : IGraph) (i : Nat) (hi : i < g.n)
    (hlen : ∀ kv ∈ g.vertexAttrs, kv.2.length = g.n)
    (hnd : (g.vertexAttrs.map Prod.fst).Nodup)
    (hres : ∀ kv ∈ g.vertexAttrs, kv.1 ≠ "pub" ∧ kv.1 ≠ "references" ∧
      kv.1 ∉ structuredKeys)
    (hvals : ∀ kv ∈ g.vertexAttrs, ∀ v ∈ kv.2, if kv.1 = "publication_year"
      then ∃ m : Int, v = .pInt m else ∃ s : String, v = .pStr s)
    (st : DecState) (hacc : st.nodeAttributes = []) :
    decodeRow ("pub" :: "references" :: g.vertexAttrs.map Prod.fst) st (encodeRow g i) =
      .ok ⟨st.citationEdges ++ (successors g i).map (fun (j : Nat) => ((i : Int), (j : Int))),
        g.vertexAttrs.map (fun kv => (kv.1, [valAt i kv])),
        setInsert st.nodes (i : Int)⟩ := by
  apply decodeRow_encodeRow g i st _ hlen hi
  rw [hacc, decodeRowItems_attrs i g.vertexAttrs _ hres
    (fun kv hkv => hvals kv hkv _ (getD_mem _ _ _ (by rw [hlen kv hkv]; exact hi))),
    attrFold_from_nil g.vertexAttrs hnd (valAt i)]

/-- Decoding a run of encoded rows extends each attribute sequence by
the rows' values, appends the rows' out-edges, and inserts the rows'
indices into the node set. -/
theorem decode_rows_keyed (g : IGraph)
    (hlen : ∀ kv ∈ g.vertexAttrs, kv.2.length = g.n)
    (hnd : (g.vertexAttrs.map Prod.fst).Nodup)
    (hres : ∀ kv ∈ g.vertexAttrs, kv.1 ≠ "pub" ∧ kv.1 ≠ "references" ∧
      kv.1 ∉ structuredKeys)
    (hvals : ∀ kv ∈ g.vertexAttrs, ∀ v ∈ kv.2, if kv.1 = "publication_year"
      then ∃ m : Int, v = .pInt m else ∃ s : String, v = .pStr s) :
    ∀ (l : List Nat) (st : DecState) (F : (String × List PyVal) → List PyVal),
      (∀ i ∈ l, i < g.n) →
      st.nodeAttributes = g.vertexAttrs.map (fun kv => (kv.1, F kv)) →
      (l.map (encodeRow g)).foldlM
        (decodeRow ("pub" :: "references" :: g.vertexAttrs.map Prod.fst)) st =
      .ok ⟨st.citationEdges ++ (l.map (fun i => (successors g i).map
          (fun (j : Nat) => ((i : Int), (j : Int))))).flatten,
        g.vertexAttrs.map (fun kv => (kv.1, F kv ++ l.map (fun i => valAt i kv))),
        l.foldl (fun (s : List Int) (i : Nat) => setInsert s (i : Int)) st.nodes⟩ := by
  intro l
  induction l with
  | nil =>
    intro st F hl hacc
    simp only [List.map_nil, List.foldlM_nil, List.flatten_nil, List.append_nil,
      List.foldl_nil]
    rw [← hacc]
    rfl
  | cons i l' ih =>
    intro st F hl hacc
    rw [List.map_cons, List.foldlM_cons,
      decodeRow_keyed g i (hl i (by simp)) hlen hnd hres hvals st F hacc]
    have hrec := ih ⟨st.citationEdges ++ (successors g i).map (fun (j : Nat) => ((i : Int), (j : Int))),
      g.vertexAttrs.map (fun kv => (kv.1, F kv ++ [valAt i kv])),
      setInsert st.nodes (i : Int)⟩
      (fun kv => F kv ++ [valAt i kv]) (fun x hx => hl x (by simp [hx])) rfl
    rw [except_ok_bind, hrec]
    simp only [List.map_cons, List.flatten_cons, List.append_assoc, List.singleton_append,
      List.foldl_cons]

/-- C2 amended: encode-then-decode reproduces the graph exactly — same
node count, same edge set as index pairs, same attribute values per
node — for every assembled-shape graph with at least one node whose
attribute sequences are full length, whose edges are valid, whose
attribute names avoid the reserved (`pub`, `references`) and
`json.loads`-coerced columns, and whose values are strings (integers
for `publication_year`).  Outside this fragment decode changes value
types, so the original claim's "same attribute value per node" fails
(see the counterexample). -/
theorem csv_roundtrip_amended (g : IGraph) (hn : 0 < g.n)
    (hlen : ∀ kv ∈ g.vertexAttrs, kv.2.length = g.n)
    (hedge : ∀ e ∈ g.edges, e.1 < g.n ∧ e.2 < g.n)
    (hnd : (g.vertexAttrs.map Prod.fst).Nodup)
    (hres : ∀ kv ∈ g.vertexAttrs, kv.1 ≠ "pub" ∧ kv.1 ≠ "references" ∧
      kv.1 ∉ structuredKeys)
    (hvals : ∀ kv ∈ g.vertexAttrs, ∀ v ∈ kv.2, if kv.1 = "publication_year"
      then ∃ m : Int, v = .pInt m else ∃ s : String, v = .pStr s) :
    ∃ g' : IGraph, create_citation_graph_from_csv (save_citation_graph_to_csv g) = .ok g' ∧
      g'.n = g.n ∧ (∀ e : Nat × Nat, e ∈ g'.edges ↔ e ∈ g.edges) ∧
      g'.vertexAttrs = g.vertexAttrs := by
  obtain ⟨mn, hm⟩ : ∃ mn, g.n = mn + 1 := ⟨g.n - 1, by omega⟩
  have hrange : List.range g.n = 0 :: (List.range mn).map Nat.succ := by
    rw [hm, List.range_succ_eq_map]
  have hfold : ((List.range g.n).map (encodeRow g)).foldlM
      (decodeRow ("pub" :: "references" :: g.vertexAttrs.map Prod.fst)) ⟨[], [], []⟩ =
      .ok ⟨((List.range g.n).map (fun i => (successors g i).map
          (fun (j : Nat) => ((i : Int), (j : Int))))).flatten,
        g.vertexAttrs.map (fun kv => (kv.1, (List.range g.n).map (fun i => valAt i kv))),
        (List.range g.n).foldl (fun (s : List Int) (i : Nat) => setInsert s (i : Int)) []⟩ := by
    rw [hrange, List.map_cons, List.foldlM_cons,
      decodeRow_first g 0 (by omega) hlen hnd hres hvals ⟨[], [], []⟩ rfl]
    have hrec := decode_rows_keyed g hlen hnd hres hvals ((List.range mn).map Nat.succ)
      ⟨(⟨[], [], []⟩ : DecState).citationEdges ++ (successors g 0).map
          (fun (j : Nat) => (((0 : Nat) : Int), (j : Int))),
        g.vertexAttrs.map (fun kv => (kv.1, [valAt 0 kv])),
        setInsert (⟨[], [], []⟩ : DecState).nodes ((0 : Nat) : Int)⟩
      (fun kv => [valAt 0 kv])
      (by
        intro i hi
        rw [List.mem_map] at hi
        obtain ⟨x, hx, rfl⟩ := hi
        rw [List.mem_range] at hx
        omega) rfl
    rw [except_ok_bind, hrec]
    simp only [List.map_cons, List.flatten_cons, List.nil_append, List.singleton_append,
      List.foldl_cons]
  have hnodes : ((List.range g.n).foldl
      (fun (s : List Int) (i : Nat) => setInsert s (i : Int)) []).length = g.n := by
    rw [foldl_setInsert_length (List.range g.n) [] (List.nodup_range g.n) (by simp)]
    simp
  have hflat : ∀ e ∈ ((List.range g.n).map (fun i => (successors g i).map
      (fun (j : Nat) => ((i : Int), (j : Int))))).flatten,
      ∃ i j : Nat, i < g.n ∧ j ∈ successors g i ∧ e = ((i : Int), (j : Int)) := by
    intro e he
    rw [List.mem_flatten] at he
    obtain ⟨l1, hl1, hel⟩ := he
    rw [List.mem_map] at hl1
    obtain ⟨i, hi, rfl⟩ := hl1
    rw [List.mem_range] at hi
    rw [List.mem_map] at hel
    obtain ⟨j, hj, rfl⟩ := hel
    exact ⟨i, j, hi, hj, rfl⟩
  have hbounds : ∀ e ∈ ((List.range g.n).map (fun i => (successors g i).map
      (fun (j : Nat) => ((i : Int), (j : Int))))).flatten,
      0 ≤ e.1 ∧ e.1.toNat < ((List.range g.n).foldl
        (fun (s : List Int) (i : Nat) => setInsert s (i : Int)) []).length ∧
      0 ≤ e.2 ∧ e.2.toNat < ((List.range g.n).foldl
        (fun (s : List Int) (i : Nat) => setInsert s (i : Int)) []).length := by
    intro e he
    obtain ⟨i, j, hi, hj, rfl⟩ := hflat e he
    have hjn : j < g.n := (hedge (i, j) ((mem_successors g i j).mp hj)).2
    rw [hnodes]
    refine ⟨by positivity, by simpa using hi, by positivity, by simpa using hjn⟩
  have hattrs : g.vertexAttrs.map
      (fun kv => (kv.1, (List.range g.n).map (fun i => valAt i kv))) = g.vertexAttrs := by
    have hid : ∀ kv ∈ g.vertexAttrs,
        (kv.1, (List.range g.n).map (fun i => valAt i kv)) = kv := by
      intro kv hkv
      have h2 : (List.range g.n).map (fun i => valAt i kv) = kv.2 := by
        rw [← hlen kv hkv]
        exact range_map_getD PyVal.pNone kv.2
      rw [h2]
    calc g.vertexAttrs.map (fun kv => (kv.1, (List.range g.n).map (fun i => valAt i kv)))
        = g.vertexAttrs.map id := List.map_congr_left hid
      _ = g.vertexAttrs := List.map_id g.vertexAttrs
  refine ⟨⟨((List.range g.n).foldl
      (fun (s : List Int) (i : Nat) => setInsert s (i : Int)) []).length,
      (((List.range g.n).map (fun i => (successors g i).map
        (fun (j : Nat) => ((i : Int), (j : Int))))).flatten).map (fun e => (e.1.toNat, e.2.toNat)),
      g.vertexAttrs.map (fun kv => (kv.1, (List.range g.n).map (fun i => valAt i kv)))⟩,
    ?_, hnodes, ?_, hattrs⟩
  · unfold create_citation_graph_from_csv save_citation_graph_to_csv
    dsimp only []
    rw [hfold]
    dsimp only []
    exact mkGraph_ok _ _ _ hbounds
  · intro e
    constructor
    · intro he
      rw [List.mem_map] at he
      obtain ⟨e', he', rfl⟩ := he
      obtain ⟨i, j, hi, hj, rfl⟩ := hflat e' he'
      simp only [Int.toNat_natCast]
      exact (mem_successors g i j).mp hj
    · intro he
      obtain ⟨a, b⟩ := e
      have han : a < g.n := (hedge (a, b) he).1
      rw [List.mem_map]
      refine ⟨((a : Int), (b : Int)), ?_, by simp⟩
      rw [List.mem_flatten]
      refine ⟨(successors g a).map (fun (j : Nat) => ((a : Int), (j : Int))), ?_, ?_⟩
      · rw [List.mem_map]
        exact ⟨a, by rw [List.mem_range]; exact han, rfl⟩
      · rw [List.mem_map]
        exact ⟨b, (mem_successors g a b).mpr he, rfl⟩

/-- C2 counterexample: an assembled one-node graph whose kept `is_oa`
attribute is the boolean `True` encodes to the cell `"True"`, and
decoding returns the string `"True"` — not the same attribute value —
so encode-then-decode does not reproduce the attribute values of every
assembled graph. -/
theorem roundtrip_counterexample :
    createCitationGraph ["is_oa"]
      [[("id", .pStr "https://openalex.org/W1"), ("referenced_works", .pList []),
        ("is_oa", .pBool true)]] = .ok ⟨1, [], [("is_oa", [.pBool true])]⟩ ∧
    create_citation_graph_from_csv (save_citation_graph_to_csv
      ⟨1, [], [("is_oa", [.pBool true])]⟩) = .ok ⟨1, [], [("is_oa", [.pStr "True"])]⟩ ∧
    (PyVal.pStr "True" ≠ PyVal.pBool true) :=
  ⟨rfl, rfl, fun h => nomatch h⟩

/-- Witness for C2 amended: a two-node graph with one edge, a string
attribute and an integer `publication_year` round-trips exactly. -/
theorem csv_roundtrip_amended_witness :
    ∃ g' : IGraph, create_citation_graph_from_csv (save_citation_graph_to_csv
      ⟨2, [(0, 1)], [("title", [.pStr "a", .pStr "b"]),
        ("publication_year", [.pInt 1999, .pInt 2024])]⟩) = .ok g' ∧
      g'.n = 2 ∧
      (∀ e : Nat × Nat, e ∈ g'.edges ↔ e ∈ [(0, 1)]) ∧
      g'.vertexAttrs = [("title", [.pStr "a", .pStr "b"]),
        ("publication_year", [.pInt 1999, .pInt 2024])] :=
  csv_roundtrip_amended
    ⟨2, [(0, 1)], [("title", [.pStr "a", .pStr "b"]),
      ("publication_year", [.pInt 1999, .pInt 2024])]⟩
    (by decide) (by decide) (by decide) (by decide) (by decide)
    (by
      intro kv hkv v hv
      simp only [List.mem_cons, List.not_mem_nil, or_false] at hkv
      rcases hkv with rfl | rfl
      · rw [if_neg (by decide)]
        simp only [List.mem_cons, List.not_mem_nil, or_false] at hv
        rcases hv with rfl | rfl
        · exact ⟨"a", rfl⟩
        · exact ⟨"b", rfl⟩
      · rw [if_pos rfl]
        simp only [List.mem_cons, List.not_mem_nil, or_false] at hv
        rcases hv with rfl | rfl
        · exact ⟨1999, rfl⟩
        · exact ⟨2024, rfl⟩)

end OpenAlexNet
